import Mathlib

/-!
Verification development for the cocon resolution-and-acquisition pipeline.

Strings are modelled as lists of characters (abbrev Str).  Each embedded
definition is translated from the TypeScript source file named in its doc
comment.  External effects (HTTP fetch, git subprocesses, the filesystem)
are modelled as explicit oracle parameters; filesystem mutations are
modelled as explicit operation traces.
-/

namespace Cocon

abbrev Str := List Char

/-- Boolean test that the first list is a prefix of the second. -/
def isPrefixB : Str → Str → Bool
  | [], _ => true
  | _ :: _, [] => false
  | a :: as, b :: bs => a = b && isPrefixB as bs

/-- Boolean substring test (JS String.prototype.includes). -/
def isSubB (n : Str) : Str → Bool
  | [] => isPrefixB n []
  | c :: t => isPrefixB n (c :: t) || isSubB n t

/-- JS String.prototype.split with a single-character separator: returns all
segments, including empty ones. -/
def splitChar (sep : Char) : Str → List Str
  | [] => [[]]
  | c :: cs =>
    let r := splitChar sep cs
    if c = sep then [] :: r
    else
      match r with
      | [] => [[c]]
      | h :: t => (c :: h) :: t

/-- Join segments with a single-character separator. -/
def joinChar (sep : Char) : List Str → Str
  | [] => []
  | [s] => s
  | s :: rest => s ++ sep :: joinChar sep rest

/-- JS Array.prototype.join with a multi-character separator string. -/
def joinStrSep (sep : Str) : List Str → Str
  | [] => []
  | [s] => s
  | s :: rest => s ++ sep ++ joinStrSep sep rest

/-- Truncate at the first occurrence of a character; models the regex
replacement that deletes a # fragment (inputs here contain no newline). -/
def cutAtFirst (sep : Char) : Str → Str
  | [] => []
  | c :: cs => if c = sep then [] else c :: cutAtFirst sep cs

/-- Split at the first occurrence of a character, none when absent. -/
def splitFirst (sep : Char) : Str → Option (Str × Str)
  | [] => none
  | c :: cs =>
    if c = sep then some ([], cs)
    else
      match splitFirst sep cs with
      | none => none
      | some (a, b) => some (c :: a, b)

/-- Last index of a character (JS String.prototype.lastIndexOf, with none
standing for the -1 sentinel). -/
def lastIdxOf (c : Char) : Str → Option Nat
  | [] => none
  | a :: as =>
    match lastIdxOf c as with
    | some i => some (i + 1)
    | none => if a = c then some 0 else none

/-- Drop a literal leading token when present (JS replace of an anchored
pattern such as the git+ scheme marker). -/
def dropPrefixIf (p s : Str) : Str :=
  if isPrefixB p s then s.drop p.length else s

/-- Character-wise lower casing (ASCII inputs in this development). -/
def lowerStr (s : Str) : Str := s.map Char.toLower

/-- Boolean suffix test. -/
def endsWithB (suf s : Str) : Bool := isPrefixB suf.reverse s.reverse

/-- Stable insertion into a list sorted by a boolean relation. -/
def insertLe (le : α → α → Bool) (a : α) : List α → List α
  | [] => [a]
  | b :: bs => if le a b then a :: b :: bs else b :: insertLe le a bs

/-- Stable insertion sort; used to model JS Array.prototype.sort, whose
comparator is threaded as an oracle where it is locale-dependent. -/
def insSort (le : α → α → Bool) : List α → List α
  | [] => []
  | a :: as => insertLe le a (insSort le as)

/-! ## Cache store (src/lib/store.ts) -/

/-- Store-relative directory name of a cache entry, the leaf part of
getStoredPackagePath in src/lib/store.ts. -/
def storedRelPath (packageName version : Str) : Str :=
  packageName ++ '@' :: version

/-- Join of a root directory and a relative path (node path.join for
already-normal inputs). -/
def joinPath (root rel : Str) : Str := root ++ '/' :: rel

/-- Canonical on-disk path for a (packageName, version) cache key;
getStoredPackagePath in src/lib/store.ts. -/
def getStoredPackagePath (storeDir packageName version : Str) : Str :=
  joinPath storeDir (storedRelPath packageName version)

/-- Reverse-parse of a store-relative directory path into its cache key;
parseStoredPackageRelativePath in src/lib/store.ts.  Backslashes are
normalized to slashes, empty segments are dropped, and the version
separator is the last @ of the leaf segment. -/
def parseStoredPackageRelativePath (relativePath : Str) : Option (Str × Str) :=
  let normalizedPath := relativePath.map fun c => if c = '\\' then '/' else c
  let segments := (splitChar '/' normalizedPath).filter (· ≠ [])
  match segments.getLast? with
  | none => none
  | some leafSegment =>
    match lastIdxOf '@' leafSegment with
    | none => none
    | some i =>
      if i = 0 then none
      else if i = leafSegment.length - 1 then none
      else
        let leafPackageName := leafSegment.take i
        let version := leafSegment.drop (i + 1)
        let parentSegments := segments.dropLast
        let packageName :=
          if parentSegments ≠ [] then
            joinChar '/' parentSegments ++ '/' :: leafPackageName
          else leafPackageName
        some (packageName, version)

/-- Cache entry as produced by store enumeration. -/
structure StoredPackageEntry where
  packageName : Str
  version : Str
  outputDir : Str
deriving DecidableEq, Repr

/-- Result of one readdir-visible filesystem child: its store-relative path
and the outcome of stat on it (none when stat throws, otherwise whether it
is a directory). -/
structure FsEntry where
  rel : Str
  stat : Option Bool
deriving DecidableEq, Repr

/-- Per-child body of the enumeration loop of collectStoredPackages in
src/lib/store.ts: the @ pre-filter, the reverse parse, the stat check and
the directory check, each skip returning none. -/
def collectEntry (storeDir : Str) (e : FsEntry) : Option StoredPackageEntry :=
  if e.rel.contains '@' then
    match parseStoredPackageRelativePath e.rel with
    | none => none
    | some (n, v) =>
      match e.stat with
      | none => none
      | some isDir =>
        if isDir then some ⟨n, v, joinPath storeDir e.rel⟩ else none
  else none

/-- Enumeration of the store directory; collectStoredPackages in
src/lib/store.ts.  The listing oracle is none when the recursive readdir
itself throws (the outer catch returns silently), otherwise the raw list
of relative paths with their stat outcomes. -/
def collectStoredPackages (storeDir : Str) (listing : Option (List FsEntry)) :
    List StoredPackageEntry :=
  match listing with
  | none => []
  | some entries => entries.filterMap (collectEntry storeDir)

/-- Store enumeration with its final sort; getStoredPackages in
src/lib/store.ts.  The locale-dependent comparator pair
(localeCompare on names, numeric localeCompare on versions) is threaded
as the boolean oracle le. -/
def getStoredPackages (le : StoredPackageEntry → StoredPackageEntry → Bool)
    (storeDir : Str) (listing : Option (List FsEntry)) : List StoredPackageEntry :=
  insSort le (collectStoredPackages storeDir listing)

/-! ## Repository locator (src/features/pull/lib/repo-resolver.ts) -/

/-- Supported repository hosts. -/
inductive Host where
  | github
  | gitlab
  | bitbucket
deriving DecidableEq, Repr

/-- Normalized repository descriptor; ResolvedRepository in repo-resolver.ts. -/
structure ResolvedRepository where
  host : Host
  owner : Str
  repo : Str
  directory : Option Str := none
deriving DecidableEq, Repr

/-- Declared repository field of a package manifest: either a bare string or
an object with optional url and directory. -/
inductive RepositoryField where
  | strField (s : Str)
  | objField (url : Option Str) (directory : Option Str)
deriving DecidableEq, Repr

/-- JS String.prototype.trim. -/
def trimStr (s : Str) : Str :=
  ((s.dropWhile Char.isWhitespace).reverse.dropWhile Char.isWhitespace).reverse

/-- Strip one case-insensitive .git suffix, then all trailing slashes;
cleanRepoName in repo-resolver.ts (the two regex replacements, in source
order). -/
def cleanRepoName (repo : Str) : Str :=
  let r1 := if endsWithB ".git".data (lowerStr repo) then repo.take (repo.length - 4) else repo
  (r1.reverse.dropWhile (· = '/')).reverse

/-- Host inference from a hostname; inferHost in repo-resolver.ts. -/
def inferHost (hostname : Str) : Option Host :=
  let normalized := dropPrefixIf "www.".data (lowerStr hostname)
  if normalized = "github".data || normalized = "github.com".data ||
      normalized = "github.org".data then some .github
  else if normalized = "gitlab".data || normalized = "gitlab.com".data ||
      normalized = "gitlab.org".data then some .gitlab
  else if normalized = "bitbucket".data || normalized = "bitbucket.com".data ||
      normalized = "bitbucket.org".data then some .bitbucket
  else none

/-- Descriptor constructor; parseOwnerRepo in repo-resolver.ts. -/
def parseOwnerRepo (host : Host) (owner repo : Str) (directory : Option Str) :
    ResolvedRepository :=
  ⟨host, owner, cleanRepoName repo, directory⟩

/-- Tail matcher for the anchored regex piece that captures owner up to the
first slash (one or more non-slash characters) and a nonempty remainder
free of the # character. -/
def matchOwnerRepoTail (rest : Str) : Option (Str × Str) :=
  match splitFirst '/' rest with
  | none => none
  | some (owner, repoPart) =>
    if owner = [] then none
    else if repoPart = [] then none
    else if repoPart.contains '#' then none
    else some (owner, repoPart)

/-- Leading host alternative of the shorthand regex, including the colon.
The three alternatives are mutually exclusive as prefixes, so backtracking
across them cannot change the outcome. -/
def matchHostShorthand (s : Str) : Option (Host × Str) :=
  if isPrefixB "github:".data s then some (.github, s.drop 7)
  else if isPrefixB "gitlab:".data s then some (.gitlab, s.drop 7)
  else if isPrefixB "bitbucket:".data s then some (.bitbucket, s.drop 10)
  else none

/-- Shorthand matcher for host:owner/repo; the first regex in
parseRepositoryUrl. -/
def shorthandMatch (s : Str) : Option (Host × Str × Str) :=
  match matchHostShorthand s with
  | none => none
  | some (h, rest) => (matchOwnerRepoTail rest).map fun p => (h, p.1, p.2)

/-- Character class of the bare owner/repo regex: A-Z a-z 0-9 _ . - . -/
def bareClassChar (c : Char) : Bool :=
  c.isAlpha || c.isDigit || c = '_' || c = '.' || c = '-'

/-- Bare GitHub owner/repo matcher; the second regex in parseRepositoryUrl. -/
def bareGithubMatch (s : Str) : Option (Str × Str) :=
  match splitFirst '/' s with
  | none => none
  | some (owner, repoPart) =>
    if owner ≠ [] && repoPart ≠ [] && owner.all bareClassChar &&
        repoPart.all bareClassChar then
      some (owner, repoPart)
    else none

/-- Leading host word of the scp-style regex alternation. -/
def matchHostWord (s : Str) : Option (Host × Str) :=
  if isPrefixB "github".data s then some (.github, s.drop 6)
  else if isPrefixB "gitlab".data s then some (.gitlab, s.drop 6)
  else if isPrefixB "bitbucket".data s then some (.bitbucket, s.drop 9)
  else none

/-- The (?:.com|.org) piece of the scp-style regex, whose dot is unescaped
and therefore matches one arbitrary character before com or org. -/
def matchDotTld (s : Str) : Option Str :=
  match s with
  | _ :: c1 :: c2 :: c3 :: rest =>
    if (c1 = 'c' && c2 = 'o' && c3 = 'm') || (c1 = 'o' && c2 = 'r' && c3 = 'g') then
      some rest
    else none
  | _ => none

/-- Matcher for git@host(.com|.org):owner/repo; the scp regex in
parseRepositoryUrl. -/
def scpLikeMatch (s : Str) : Option (Host × Str × Str) :=
  if isPrefixB "git@".data s then
    match matchHostWord (s.drop 4) with
    | none => none
    | some (h, rest1) =>
      match matchDotTld rest1 with
      | none => none
      | some rest2 =>
        match rest2 with
        | ':' :: rest3 => (matchOwnerRepoTail rest3).map fun p => (h, p.1, p.2)
        | _ => none
  else none

/-- Matcher for ssh://git@host:owner/repo; the fourth regex in
parseRepositoryUrl. -/
def sshColonMatch (s : Str) : Option (Host × Str × Str) :=
  if isPrefixB "ssh://".data s then scpLikeMatch (s.drop 6) else none

/-- Drop everything through the last userinfo @ of an authority. -/
def afterLastAt (s : Str) : Str :=
  match lastIdxOf '@' s with
  | none => s
  | some i => s.drop (i + 1)

/-- Minimal embedding of the JS URL constructor, faithful for inputs of
shape scheme://[userinfo@]host[:port]/path with no query: returns hostname
and pathname, none when construction would throw or leave no usable host
(both cases make parseRepositoryUrl return null). -/
def parseUrlHostPath (s : Str) : Option (Str × Str) :=
  match splitFirst ':' s with
  | none => none
  | some (scheme, rest) =>
    if scheme = [] || !scheme.all Char.isAlpha then none
    else
      match rest with
      | '/' :: '/' :: rest2 =>
        let authority := cutAtFirst '/' rest2
        let path := rest2.drop authority.length
        let hostname := cutAtFirst ':' (afterLastAt authority)
        if hostname = [] then none else some (hostname, path)
      | _ => none

/-- Full-URL branch of parseRepositoryUrl: URL construction, host
inference, and destructuring the first two pathname segments. -/
def urlBranch (normalizedUrl : Str) (directory : Option Str) :
    Option ResolvedRepository :=
  match parseUrlHostPath normalizedUrl with
  | none => none
  | some (hostname, path) =>
    match inferHost hostname with
    | none => none
    | some host =>
      let segs := splitChar '/' (path.dropWhile (· = '/'))
      let owner := segs.getD 0 []
      let repo := segs.getD 1 []
      if owner = [] || repo = [] then none
      else some (parseOwnerRepo host owner repo directory)

/-- Matcher chain of parseRepositoryUrl on the already-normalized URL: the
four regexes and the URL branch, in source order. -/
def parseNormalized (normalizedUrl : Str) (directory : Option Str) :
    Option ResolvedRepository :=
  match shorthandMatch normalizedUrl with
  | some (h, o, r) => some (parseOwnerRepo h o r directory)
  | none =>
    match bareGithubMatch normalizedUrl with
    | some (o, r) => some (parseOwnerRepo .github o r directory)
    | none =>
      match scpLikeMatch normalizedUrl with
      | some (h, o, r) => some (parseOwnerRepo h o r directory)
      | none =>
        match sshColonMatch normalizedUrl with
        | some (h, o, r) => some (parseOwnerRepo h o r directory)
        | none => urlBranch normalizedUrl directory

/-- Repository field parser; parseRepositoryUrl in repo-resolver.ts.  The
normalization trims, strips a git+ prefix and a # fragment, then the four
regex matchers and the URL branch are tried in source order. -/
def parseRepositoryUrl (repository : Option RepositoryField) :
    Option ResolvedRepository :=
  match repository with
  | none => none
  | some f =>
    let url? : Option Str :=
      match f with
      | .strField s => some s
      | .objField u _ => u
    let directory : Option Str :=
      match f with
      | .strField _ => none
      | .objField _ d => d
    match url? with
    | none => none
    | some url =>
      parseNormalized (cutAtFirst '#' (dropPrefixIf "git+".data (trimStr url)))
        directory

/-- Canonical domain of a supported host. -/
def hostDomain : Host → Str
  | .github => "github.com".data
  | .gitlab => "gitlab.com".data
  | .bitbucket => "bitbucket.org".data

/-- Bare word of a supported host, as used by the shorthand form. -/
def hostWordStr : Host → Str
  | .github => "github".data
  | .gitlab => "gitlab".data
  | .bitbucket => "bitbucket".data

/-- Canonical HTTPS repository URL; toHttpsRepositoryUrl in
repo-resolver.ts. -/
def toHttpsRepositoryUrl (repo : ResolvedRepository) : Str :=
  match repo.host with
  | .github => "https://github.com/".data ++ repo.owner ++ '/' :: repo.repo
  | .gitlab => "https://gitlab.com/".data ++ repo.owner ++ '/' :: repo.repo
  | .bitbucket => "https://bitbucket.org/".data ++ repo.owner ++ '/' :: repo.repo

/-- Parsed repository together with its canonical HTTPS URL. -/
structure NormalizedRepository where
  repo : ResolvedRepository
  httpsUrl : Str
deriving DecidableEq, Repr

/-- Parse, render to HTTPS and re-parse; normalizeRepositoryToHttpsRepo in
repo-resolver.ts. -/
def normalizeRepositoryToHttpsRepo (repository : Option RepositoryField) :
    Option NormalizedRepository :=
  match parseRepositoryUrl repository with
  | none => none
  | some parsed =>
    let httpsUrl := toHttpsRepositoryUrl parsed
    match parseRepositoryUrl (some (.objField (some httpsUrl) parsed.directory)) with
    | none => none
    | some normalized => some ⟨normalized, httpsUrl⟩

/-- Per-host tag archive URL; getTagTarballUrl in repo-resolver.ts. -/
def getTagTarballUrl (repo : ResolvedRepository) (tag : Str) : Str :=
  match repo.host with
  | .github =>
    "https://github.com/".data ++ repo.owner ++ '/' :: repo.repo ++
      "/archive/refs/tags/".data ++ tag ++ ".tar.gz".data
  | .gitlab =>
    "https://gitlab.com/".data ++ repo.owner ++ '/' :: repo.repo ++
      "/-/archive/".data ++ tag ++ '/' :: repo.repo ++ '-' :: tag ++ ".tar.gz".data
  | .bitbucket =>
    "https://bitbucket.org/".data ++ repo.owner ++ '/' :: repo.repo ++
      "/get/".data ++ tag ++ ".tar.gz".data

/-- Ordered default-branch archive URLs, main before master;
getDefaultBranchTarballUrls in repo-resolver.ts. -/
def getDefaultBranchTarballUrls (repo : ResolvedRepository) : List Str :=
  match repo.host with
  | .github =>
    ["https://github.com/".data ++ repo.owner ++ '/' :: repo.repo ++
       "/archive/refs/heads/main.tar.gz".data,
     "https://github.com/".data ++ repo.owner ++ '/' :: repo.repo ++
       "/archive/refs/heads/master.tar.gz".data]
  | .gitlab =>
    ["https://gitlab.com/".data ++ repo.owner ++ '/' :: repo.repo ++
       "/-/archive/main/".data ++ repo.repo ++ "-main.tar.gz".data,
     "https://gitlab.com/".data ++ repo.owner ++ '/' :: repo.repo ++
       "/-/archive/master/".data ++ repo.repo ++ "-master.tar.gz".data]
  | .bitbucket =>
    ["https://bitbucket.org/".data ++ repo.owner ++ '/' :: repo.repo ++
       "/get/main.tar.gz".data,
     "https://bitbucket.org/".data ++ repo.owner ++ '/' :: repo.repo ++
       "/get/master.tar.gz".data]

/-! ## Tag resolver (src/features/pull/lib/tag-finder.ts)

The fuzzy pattern of findTag is the JS regex built from the version with
only dots escaped.  Within the character domains used by the theorems
below, such a pattern consists of literal characters and the one-or-more
quantifier, which the following small engine implements with full
backtracking. -/

/-- Token of the compiled fuzzy pattern: a literal character or a
one-or-more repetition of a character. -/
inductive RTok where
  | lit (c : Char)
  | plus (c : Char)
deriving DecidableEq, Repr

/-- Compile the version string into pattern tokens: a dot was escaped by the
source and is therefore literal, and a + quantifies the preceding
character. -/
def tokenizeVersion : Str → List RTok
  | [] => []
  | [c] => [.lit c]
  | c :: d :: rest =>
    if d = '+' then .plus c :: tokenizeVersion rest
    else .lit c :: tokenizeVersion (d :: rest)

/-- Match a token list against a prefix of the text, with backtracking.
Every recursive step consumes exactly one text character, so the fuel
argument, started at the text length, never runs out; it only makes the
recursion structural. -/
def matchToksF (fuel : Nat) (ts : List RTok) (t : Str) : Bool :=
  match ts with
  | [] => true
  | .lit c :: ts2 =>
    match t, fuel with
    | d :: ds, fuel2 + 1 => c = d && matchToksF fuel2 ts2 ds
    | _, _ => false
  | .plus c :: ts2 =>
    match t, fuel with
    | d :: ds, fuel2 + 1 =>
      c = d && (matchToksF fuel2 ts2 ds || matchToksF fuel2 (.plus c :: ts2) ds)
    | _, _ => false

/-- Match a token list against a prefix of the text. -/
def matchToks (ts : List RTok) (t : Str) : Bool := matchToksF t.length ts t

/-- Unanchored regex test: the pattern matches at some position. -/
def regexTestB (ts : List RTok) : Str → Bool
  | [] => matchToks ts []
  | c :: rest => matchToks ts (c :: rest) || regexTestB ts rest

/-- Outcome of tag resolution; TagResult in tag-finder.ts. -/
structure TagResult where
  tag : Option Str
  usedFallback : Bool
deriving DecidableEq, Repr

/-- Tag resolution; findTag in tag-finder.ts.  The listing oracle is none
when git ls-remote fails (the catch path), otherwise the tag list.  The
JS template piece that renders an absent split result is the literal
undefined text. -/
def findTag (tags? : Option (List Str)) (version packageName : Str) : TagResult :=
  match tags? with
  | none => ⟨none, true⟩
  | some tags =>
    if tags.length = 0 then ⟨none, true⟩
    else
      let vTag := 'v' :: version
      if tags.contains vTag then ⟨some vTag, false⟩
      else if tags.contains version then ⟨some version, false⟩
      else
        let scopedTag := packageName ++ '@' :: version
        if tags.contains scopedTag then ⟨some scopedTag, false⟩
        else
          let unscopedHit : Option Str :=
            if isPrefixB "@".data packageName then
              let parts := splitChar '/' packageName
              let unscopedName := parts.getD 1 "undefined".data
              let unscopedTag := unscopedName ++ '@' :: version
              if tags.contains unscopedTag then some unscopedTag else none
            else none
          match unscopedHit with
          | some t => ⟨some t, false⟩
          | none =>
            match tags.find? fun t => regexTestB (tokenizeVersion version) t with
            | some t => ⟨some t, false⟩
            | none => ⟨none, true⟩

/-- Tag resolution as the specification words it: identical to findTag
except that priority 4 requires an actual scope prefix (an @ start and a
slash) and priority 5 is a literal substring test. -/
def specFindTag (tags? : Option (List Str)) (version packageName : Str) : TagResult :=
  match tags? with
  | none => ⟨none, true⟩
  | some tags =>
    if tags.length = 0 then ⟨none, true⟩
    else
      let vTag := 'v' :: version
      if tags.contains vTag then ⟨some vTag, false⟩
      else if tags.contains version then ⟨some version, false⟩
      else
        let scopedTag := packageName ++ '@' :: version
        if tags.contains scopedTag then ⟨some scopedTag, false⟩
        else
          let unscopedHit : Option Str :=
            if isPrefixB "@".data packageName && packageName.contains '/' then
              let parts := splitChar '/' packageName
              let unscopedName := parts.getD 1 "undefined".data
              let unscopedTag := unscopedName ++ '@' :: version
              if tags.contains unscopedTag then some unscopedTag else none
            else none
          match unscopedHit with
          | some t => ⟨some t, false⟩
          | none =>
            match tags.find? fun t => isSubB version t with
            | some t => ⟨some t, false⟩
            | none => ⟨none, true⟩

/-- Characters of a version string that keep the fuzzy pattern free of
regex metacharacters (a dot is safe because the source escapes it). -/
def safeVersionChar (c : Char) : Bool :=
  !(c = '+' || c = '*' || c = '?' || c = '(' || c = ')' || c = '[' || c = ']' ||
    c = '{' || c = '}' || c = '^' || c = '$' || c = '|' || c = '\\')

/-! ## Retrying fetcher (src/features/pull/lib/http.ts) -/

/-- Decimal rendering of a number, as JS template interpolation does. -/
def natStr (n : Nat) : Str := (Nat.repr n).data

/-- HTTP response abstraction: its status and an opaque payload standing
for all remaining response data, so that returned unchanged is expressible. -/
structure HttpResp where
  status : Nat
  payload : Str
deriving DecidableEq, Repr

/-- Outcome of one transport attempt: a thrown error or a response. -/
inductive AttemptOutcome where
  | throwErr (msg : Str)
  | resp (r : HttpResp)
deriving DecidableEq, Repr

/-- Whether a status is in the 2xx range (Response.ok). -/
def respOkStatus (status : Nat) : Bool := 200 ≤ status && status < 300

/-- Fixed retryable status set of http.ts. -/
def RETRYABLE_STATUS_CODES : List Nat := [408, 425, 429, 500, 502, 503, 504]

/-- Transient transport error denylist; isRetryableError in http.ts. -/
def isRetryableError (msg : Str) : Bool :=
  let m := lowerStr msg
  isSubB "socket connection was closed unexpectedly".data m ||
    isSubB "econnreset".data m ||
    isSubB "timed out".data m ||
    isSubB "network".data m

/-- Body of the retry loop of fetchWithRetry in http.ts.  The outcomes
oracle gives the transport result of each attempt (numbered from 1); the
result is the surfaced response or error, the number of the attempt that
produced it, and the list of delays awaited between attempts.  The fuel
zero case models the closing throw after the loop, which is unreachable
whenever the fuel covers the attempt range. -/
def fetchGo (outcomes : Nat → AttemptOutcome) (maxAttempts : Nat) :
    Nat → Nat → Except Str HttpResp × Nat × List Nat
  | 0, attempt => (.error "Failed to fetch".data, attempt - 1, [])
  | remaining + 1, attempt =>
    match outcomes attempt with
    | .resp r =>
      if respOkStatus r.status || !(RETRYABLE_STATUS_CODES.contains r.status) ||
          attempt = maxAttempts then
        (.ok r, attempt, [])
      else
        let next := fetchGo outcomes maxAttempts remaining (attempt + 1)
        (next.1, next.2.1, 150 * 2 ^ (attempt - 1) :: next.2.2)
    | .throwErr m =>
      if attempt = maxAttempts || !isRetryableError m then (.error m, attempt, [])
      else
        let next := fetchGo outcomes maxAttempts remaining (attempt + 1)
        (next.1, next.2.1, 150 * 2 ^ (attempt - 1) :: next.2.2)

/-- Retrying fetch; fetchWithRetry in http.ts with its default attempt
ceiling of 3. -/
def fetchWithRetry (outcomes : Nat → AttemptOutcome) (maxAttempts : Nat := 3) :
    Except Str HttpResp × Nat × List Nat :=
  fetchGo outcomes maxAttempts maxAttempts 1

/-- Whether one attempt outcome is one the loop retries on: a transport
error matching the transient denylist, or a response whose status is in
the retryable set (all of which are outside the 2xx range). -/
def retryableOutcome : AttemptOutcome → Bool
  | .throwErr m => isRetryableError m
  | .resp r => !respOkStatus r.status && RETRYABLE_STATUS_CODES.contains r.status

/-- Specification of the retry loop from a given attempt on: the surfaced
attempt is in range, the awaited delays follow the exponential schedule,
every earlier attempt was retryable, an early stop is non-retryable, and
the outcome of the surfaced attempt is returned or rethrown unchanged. -/
def FetchSpec (outcomes : Nat → AttemptOutcome) (maxAttempts attempt : Nat)
    (R : Except Str HttpResp × Nat × List Nat) : Prop :=
  attempt ≤ R.2.1 ∧ R.2.1 ≤ maxAttempts ∧
  R.2.2 = (List.range' (attempt - 1) (R.2.1 - attempt)).map (fun k => 150 * 2 ^ k) ∧
  (∀ i, attempt ≤ i → i < R.2.1 → retryableOutcome (outcomes i) = true) ∧
  (R.2.1 < maxAttempts → retryableOutcome (outcomes R.2.1) = false) ∧
  (∀ r, outcomes R.2.1 = .resp r → R.1 = .ok r) ∧
  (∀ m, outcomes R.2.1 = .throwErr m → R.1 = .error m)

/-! ## Downloader (src/features/pull/lib/downloader.ts) -/

/-- Outcome of the (already retried) fetch inside downloadAndExtract: a
thrown transport error, or a response with status, status text and body
presence. -/
inductive FetchOutcome where
  | throwErr (msg : Str)
  | resp (status : Nat) (statusText : Str) (hasBody : Bool)
deriving DecidableEq, Repr

/-- Environment of one downloadAndExtract call: the fetch outcome and the
tar extraction outcome (with its error message when it fails). -/
structure DlEnv where
  fetch : FetchOutcome
  tarOk : Bool
  tarMsg : Str
deriving DecidableEq, Repr

/-- Filesystem operations performed by downloadAndExtract, in order:
remove a stale final directory, make the parent, make the fresh temporary
.tmp- directory, remove the temporary directory, atomically rename the
temporary directory onto the final path. -/
inductive FsOp where
  | rmFinal
  | mkdirParent
  | mkTemp
  | rmTemp
  | renameTempToFinal
deriving DecidableEq, Repr

/-- Tarball download and extraction; downloadAndExtract in downloader.ts.
Returns the call result together with the exact trace of filesystem
operations the call performs on the final cache path and the temporary
extraction directory. -/
def downloadAndExtract (env : DlEnv) : Except Str Unit × List FsOp :=
  let pre : List FsOp := [.rmFinal, .mkdirParent, .mkTemp]
  match env.fetch with
  | .throwErr m => (.error m, pre ++ [.rmTemp])
  | .resp status statusText hasBody =>
    if !respOkStatus status then
      (.error ("Failed to download: ".data ++ natStr status ++ ' ' :: statusText),
       pre ++ [.rmTemp])
    else if !hasBody then
      (.error "No response body".data, pre ++ [.rmTemp])
    else if env.tarOk then
      (.ok (), pre ++ [.renameTempToFinal])
    else
      (.error env.tarMsg, pre ++ [.rmTemp])

/-- Existence state of the final cache path and of the temporary
extraction directory. -/
structure FsState where
  finalExists : Bool
  tmpExists : Bool
deriving DecidableEq, Repr

/-- Effect of one filesystem operation on the existence state. -/
def applyOp (s : FsState) : FsOp → FsState
  | .rmFinal => { s with finalExists := false }
  | .mkdirParent => s
  | .mkTemp => { s with tmpExists := true }
  | .rmTemp => { s with tmpExists := false }
  | .renameTempToFinal => { finalExists := true, tmpExists := false }

/-- Effect of a trace of filesystem operations. -/
def applyOps (s : FsState) (ops : List FsOp) : FsState := ops.foldl applyOp s

/-! ## Download orchestration (src/features/pull/lib/pull.ts) -/

/-- Result component of downloadAndExtract, without the trace. -/
def dlResult (e : DlEnv) : Except Str Unit := (downloadAndExtract e).1

/-- Error-message fragment the source uses to recognize a 404 tag-archive
failure. -/
def sentinel404 : Str := "Failed to download: 404".data

/-- Outcome of the default-branch fallback loop. -/
inductive FallbackOut where
  | success
  | exhausted (lastErr : Option Str)
deriving DecidableEq, Repr

/-- Fallback loop of downloadRepositorySource: try each URL in order, stop
at the first success, remember the last error; returns the outcome and
the URLs actually attempted. -/
def runFallbacks (env : Str → DlEnv) : List Str → Option Str → FallbackOut × List Str
  | [], lastErr => (.exhausted lastErr, [])
  | u :: us, _lastErr =>
    match dlResult (env u) with
    | .ok _ => (.success, [u])
    | .error m =>
      let next := runFallbacks env us (some m)
      (next.1, u :: next.2)

/-- Download dispatch; downloadRepositorySource in pull.ts.  The per-URL
environment oracle env gives the downloadAndExtract environment of each
tarball URL; the sparse oracle gives the outcome of the sparse-clone path
taken when the descriptor carries a subdirectory.  Returns the result and
the list of tarball URLs attempted. -/
def downloadRepositorySource (repo : ResolvedRepository) (tag : Option Str)
    (env : Str → DlEnv) (sparse : Except Str Unit) : Except Str Unit × List Str :=
  match repo.directory with
  | some _ => (sparse, [])
  | none =>
    let fallbackUrls := getDefaultBranchTarballUrls repo
    let finish : FallbackOut × List Str → Except Str Unit × List Str := fun fb =>
      match fb.1 with
      | .success => (.ok (), fb.2)
      | .exhausted lastErr =>
        let attempted := joinStrSep ", ".data fallbackUrls
        match lastErr with
        | some m =>
          (.error (m ++ " (attempted: ".data ++ attempted ++ ")".data), fb.2)
        | none =>
          (.error ("Failed to download package source (attempted: ".data ++
             attempted ++ ")".data), fb.2)
    match tag with
    | some t =>
      let tagUrl := getTagTarballUrl repo t
      match dlResult (env tagUrl) with
      | .ok _ => (.ok (), [tagUrl])
      | .error m =>
        if !isSubB sentinel404 m then (.error m, [tagUrl])
        else
          let fb := finish (runFallbacks env fallbackUrls none)
          (fb.1, tagUrl :: fb.2)
    | none => finish (runFallbacks env fallbackUrls none)

/-- Message of a failed result, the empty string on success. -/
def errMsgOf : Except Str Unit → Str
  | .error m => m
  | .ok _ => []

/-! ## Pull pipeline (src/features/pull/lib/pull.ts) -/

/-- External-call kinds whose absence the idempotence claim asserts. -/
inductive Eff where
  | effRegistry
  | effTagList
  | effGit
  | effDownload
deriving DecidableEq, Repr

/-- Result of resolveInstalledPackageFromCwd, as consumed by the pull
pipeline. -/
structure InstalledPkg where
  version : Str
  repository : Option RepositoryField
  isLocalSource : Bool
deriving Repr

/-- Result of resolveLocalPackageSource. -/
structure LocalPackageSource where
  repositoryDir : Str
  packageSubdirectory : Option Str
deriving DecidableEq, Repr

/-- Oracle environment of one acquisition: the store root, the outcome of
the installed-package resolution, the directory-existence test, the
local-source walk, the project-link creation, the registry metadata
lookup, the remote tag listing, and the download environments. -/
structure PullEnv where
  storeDir : Str
  installed : Except Str InstalledPkg
  isDirAt : Str → Bool
  localSource : LocalPackageSource
  link : Except Str Str
  registry : Except Str (Option RepositoryField)
  tags : Option (List Str)
  dl : Str → DlEnv
  sparse : Except Str Unit

/-- Whether the tag lookup is skipped; shouldSkipTagLookup in pull.ts. -/
def shouldSkipTagLookup (packageName : Str) (repo : ResolvedRepository) : Bool :=
  isPrefixB "@types/".data packageName && repo.host = Host.github &&
    lowerStr repo.owner = "definitelytyped".data &&
    lowerStr repo.repo = "definitelytyped".data

/-- Workspace specifier test; isWorkspaceSpecifier in package-json.ts. -/
def isWorkspaceSpecifier (specifier : Str) : Bool :=
  isPrefixB "workspace:".data (lowerStr (specifier.dropWhile Char.isWhitespace))

/-- Repository resolution step shared by both acquisition entry points:
the declared repository field when it normalizes, otherwise one registry
request whose failure is swallowed. -/
def resolveRepoStep (installedRepo : Option RepositoryField)
    (registry : Except Str (Option RepositoryField)) :
    Option ResolvedRepository × List Eff :=
  match normalizeRepositoryToHttpsRepo installedRepo with
  | some nr => (some nr.repo, [])
  | none =>
    match registry with
    | .ok f => ((normalizeRepositoryToHttpsRepo f).map (·.repo), [.effRegistry])
    | .error _ => (none, [.effRegistry])

/-- Tag resolution step: skipped entirely for the DefinitelyTyped case,
otherwise one git ls-remote listing feeding findTag. -/
def tagStep (packageName version : Str) (repo : ResolvedRepository)
    (tags : Option (List Str)) : TagResult × List Eff :=
  if shouldSkipTagLookup packageName repo then (⟨none, true⟩, [])
  else (findTag tags version packageName, [.effTagList])

/-- Download step: sparse git clone when a subdirectory is set, otherwise
one tarball download per attempted URL. -/
def downloadStep (repo : ResolvedRepository) (tag : Option Str) (env : PullEnv) :
    Except Str Unit × List Eff :=
  let r := downloadRepositorySource repo tag env.dl env.sparse
  match repo.directory with
  | some _ => (r.1, [.effGit])
  | none => (r.1, r.2.map fun _ => .effDownload)

/-- Reason a pull was skipped. -/
inductive SkipReason where
  | workspace
  | privatePkg
deriving DecidableEq, Repr

/-- Terminal status of a pull. -/
inductive PullStatus where
  | complete
  | skipped
  | errored
deriving DecidableEq, Repr

/-- Result record of pullPackageForProject. -/
structure PullResult where
  packageName : Str
  version : Option Str
  status : PullStatus
  fromCache : Option Bool
  skipReason : Option SkipReason
  error : Option Str
deriving DecidableEq, Repr

/-- Error result built by the catch-all of pullPackageForProject. -/
def errorPullResult (packageName m : Str) : PullResult :=
  ⟨packageName, none, .errored, none, none, some m⟩

/-- Per-package acquisition; pullPackageForProject in pull.ts.  Returns the
result together with the external calls performed. -/
def pullPackageForProject (packageName : Str) (declaredSpec : Option Str)
    (env : PullEnv) : PullResult × List Eff :=
  let isWs :=
    match declaredSpec with
    | some s => isWorkspaceSpecifier s
    | none => false
  if isWs then
    (⟨packageName, none, .skipped, none, some .workspace, none⟩, [])
  else
    match env.installed with
    | .error m => (errorPullResult packageName m, [])
    | .ok installed =>
      let outputDir := getStoredPackagePath env.storeDir packageName installed.version
      if env.isDirAt outputDir then
        match env.link with
        | .ok _ =>
          (⟨packageName, some installed.version, .complete, some true, none, none⟩, [])
        | .error m => (errorPullResult packageName m, [])
      else if installed.isLocalSource then
        (⟨packageName, some installed.version, .skipped, none, some .workspace, none⟩, [])
      else
        let step1 := resolveRepoStep installed.repository env.registry
        match step1.1 with
        | none =>
          (⟨packageName, some installed.version, .skipped, none, some .privatePkg, none⟩,
           step1.2)
        | some repo =>
          let step2 := tagStep packageName installed.version repo env.tags
          let step3 := downloadStep repo step2.1.tag env
          match step3.1 with
          | .error m => (errorPullResult packageName m, step1.2 ++ step2.2 ++ step3.2)
          | .ok _ =>
            match env.link with
            | .error m => (errorPullResult packageName m, step1.2 ++ step2.2 ++ step3.2)
            | .ok _ =>
              (⟨packageName, some installed.version, .complete, some false, none, none⟩,
               step1.2 ++ step2.2 ++ step3.2)

/-- Result record of ensurePackageSourceFromInstalled. -/
structure PackageSourceResult where
  packageName : Str
  version : Str
  repositoryPath : Str
  packagePath : Str
  packageSubdirectory : Option Str
  fromCache : Bool
deriving DecidableEq, Repr

/-- Path of the package inside a cached repository; getCachedPackagePath in
pull.ts. -/
def getCachedPackagePath (repositoryPath : Str) (packageSubdirectory : Option Str) :
    Str :=
  match packageSubdirectory with
  | some sub => joinPath repositoryPath sub
  | none => repositoryPath

/-- Acquisition from an installed package; ensurePackageSourceFromInstalled
in pull.ts.  Errors propagate to the caller. -/
def ensurePackageSourceFromInstalled (packageName : Str) (env : PullEnv) :
    Except Str PackageSourceResult × List Eff :=
  match env.installed with
  | .error m => (.error m, [])
  | .ok installed =>
    let outputDir := getStoredPackagePath env.storeDir packageName installed.version
    let localPackageSource : Option LocalPackageSource :=
      if installed.isLocalSource then some env.localSource else none
    let localRepo := normalizeRepositoryToHttpsRepo installed.repository
    if env.isDirAt outputDir then
      match env.link with
      | .error m => (.error m, [])
      | .ok repositoryPath =>
        let packageSubdirectory :=
          (localPackageSource.bind fun l => l.packageSubdirectory).or
            (localRepo.bind fun nr => nr.repo.directory)
        (.ok ⟨packageName, installed.version, repositoryPath,
           getCachedPackagePath repositoryPath packageSubdirectory,
           packageSubdirectory, true⟩, [])
    else
      match localPackageSource with
      | some l =>
        let packagePath :=
          match l.packageSubdirectory with
          | some s => joinPath l.repositoryDir s
          | none => l.repositoryDir
        (.ok ⟨packageName, installed.version, l.repositoryDir, packagePath,
           l.packageSubdirectory, false⟩, [])
      | none =>
        let step1 : Option ResolvedRepository × List Eff :=
          match localRepo with
          | some nr => (some nr.repo, [])
          | none =>
            match env.registry with
            | .ok f => ((normalizeRepositoryToHttpsRepo f).map (·.repo), [.effRegistry])
            | .error _ => (none, [.effRegistry])
        match step1.1 with
        | none =>
          (.error ("No repository metadata found for ".data ++ packageName ++
             '@' :: installed.version ++
             ". This package is likely private or proprietary".data), step1.2)
        | some repo =>
          let step2 := tagStep packageName installed.version repo env.tags
          let step3 := downloadStep repo step2.1.tag env
          match step3.1 with
          | .error m => (.error m, step1.2 ++ step2.2 ++ step3.2)
          | .ok _ =>
            match env.link with
            | .error m => (.error m, step1.2 ++ step2.2 ++ step3.2)
            | .ok repositoryPath =>
              (.ok ⟨packageName, installed.version, repositoryPath,
                 getCachedPackagePath repositoryPath repo.directory,
                 repo.directory, false⟩, step1.2 ++ step2.2 ++ step3.2)

/-! ## Prune engine (src/features/prune.ts) -/

/-- Options of pruneCache, with absent fields as none. -/
structure PruneCacheOptions where
  keepLatest : Option Int := none
  keepProjectDependencies : Option Bool := none
  keep : Option (List Str) := none
  dryRun : Option Bool := none

/-- Removed-entry record of pruneCache. -/
structure PruneCacheRemoved where
  packageName : Str
  version : Str
  repositoryPath : Str
  reason : Str
deriving DecidableEq, Repr

/-- Result record of pruneCache. -/
structure PruneCacheResult where
  storeDir : Str
  totalBefore : Nat
  totalAfter : Nat
  removed : List PruneCacheRemoved
  kept : Nat
  dryRun : Bool
  warnings : List Str
deriving DecidableEq, Repr

/-- Split of a literal keep reference on its last @;
parsePackageVersionReference in prune.ts. -/
def parsePackageVersionReference (reference : Str) : Option (Str × Str) :=
  match lastIdxOf '@' reference with
  | none => none
  | some separatorIndex =>
    if separatorIndex = 0 then none
    else if separatorIndex + 1 ≥ reference.length then none
    else
      let packageName := reference.take separatorIndex
      let version := reference.drop (separatorIndex + 1)
      if packageName = [] || version = [] then none
      else some (packageName, version)

/-- Insertion-ordered map update appending one reason; models the JS Map
inside pruneCache. -/
def upsertAppend (key reason : Str) : List (Str × List Str) → List (Str × List Str)
  | [] => [(key, [reason])]
  | (k, rs) :: rest =>
    if k = key then (k, rs ++ [reason]) :: rest
    else (k, rs) :: upsertAppend key reason rest

/-- Lookup in the insertion-ordered map. -/
def lookupAssoc (key : Str) : List (Str × List Str) → Option (List Str)
  | [] => none
  | (k, rs) :: rest => if k = key then some rs else lookupAssoc key rest

/-- Insertion-ordered grouping of entries by package name. -/
def groupInsert (e : StoredPackageEntry) :
    List (Str × List StoredPackageEntry) → List (Str × List StoredPackageEntry)
  | [] => [(e.packageName, [e])]
  | (k, es) :: rest =>
    if k = e.packageName then (k, es ++ [e]) :: rest
    else (k, es) :: groupInsert e rest

/-- Grouping loop of pruneCache. -/
def groupByPackage (stored : List StoredPackageEntry) :
    List (Str × List StoredPackageEntry) :=
  stored.foldl (fun m e => groupInsert e m) []

/-- Body of the removal loop of pruneCache: keep entries with a nonempty
reason set, otherwise record a removal and, outside dry-run mode, delete
the entry from disk.  The accumulator is (removed, kept, deleted). -/
def pruneStep (dryRun : Bool) (keepReasons : List (Str × List Str))
    (acc : List PruneCacheRemoved × Nat × List StoredPackageEntry)
    (e : StoredPackageEntry) :
    List PruneCacheRemoved × Nat × List StoredPackageEntry :=
  let key := e.packageName ++ '@' :: e.version
  let reasons := (lookupAssoc key keepReasons).getD []
  if reasons.length > 0 then (acc.1, acc.2.1 + 1, acc.2.2)
  else
    (acc.1 ++ [⟨e.packageName, e.version, e.outputDir,
       "not matched by keep rules".data⟩],
     acc.2.1,
     if dryRun then acc.2.2 else acc.2.2 ++ [e])

/-- Cache pruning; pruneCache in prune.ts.  The stored list is the store
enumeration, verDesc is the locale-dependent descending numeric version
comparator threaded as an oracle, projectTargets is the outcome of
getProjectTargetVersions (name with its set of target versions, or the
error its failure raises).  Returns the result record and the list of
entries actually deleted from disk. -/
def pruneCache (storeDir : Str) (stored : List StoredPackageEntry)
    (verDesc : StoredPackageEntry → StoredPackageEntry → Bool)
    (projectTargets : Except Str (List (Str × List Str)))
    (options : PruneCacheOptions) : PruneCacheResult × List StoredPackageEntry :=
  let keepLatest := (max 0 (options.keepLatest.getD 1)).toNat
  let keepProjectDependencies := options.keepProjectDependencies.getD true
  let dryRun := options.dryRun.getD false
  let grouped := groupByPackage stored
  let sortedGroups := grouped.map fun g => (g.1, insSort verDesc g.2)
  let afterLatest : List (Str × List Str) :=
    if keepLatest > 0 then
      sortedGroups.foldl
        (fun m g =>
          (g.2.take keepLatest).foldl
            (fun m2 e =>
              upsertAppend (e.packageName ++ '@' :: e.version)
                ("keepLatest(".data ++ natStr keepLatest ++ ")".data) m2)
            m)
        []
    else []
  let projectStep : List (Str × List Str) × List Str :=
    if keepProjectDependencies then
      match projectTargets with
      | .ok targets =>
        (targets.foldl
           (fun m t =>
             t.2.foldl
               (fun m2 v =>
                 upsertAppend (t.1 ++ '@' :: v) "project-target-version".data m2)
               m)
           afterLatest, [])
      | .error m =>
        (afterLatest, ["Failed to resolve project dependency targets: ".data ++ m])
    else (afterLatest, [])
  let keepStep : List (Str × List Str) × List Str :=
    (options.keep.getD []).foldl
      (fun acc reference =>
        match parsePackageVersionReference reference with
        | none =>
          (acc.1,
           acc.2 ++ ["Invalid keep reference \"".data ++ reference ++
             "\" (expected package@version)".data])
        | some p =>
          (upsertAppend (p.1 ++ '@' :: p.2) "explicit-keep".data acc.1, acc.2))
      projectStep
  let keepReasons := keepStep.1
  let warnings := keepStep.2
  let loop := stored.foldl (pruneStep dryRun keepReasons) ([], 0, [])
  (⟨storeDir, stored.length,
     if dryRun then stored.length else stored.length - loop.1.length,
     loop.1, loop.2.1, dryRun, warnings⟩, loop.2.2)

/-! ## Supporting lemmas on the string utilities -/

theorem isPrefixB_iff (p s : Str) : isPrefixB p s = true ↔ ∃ t, s = p ++ t := by
  induction p generalizing s with
  | nil => simp [isPrefixB]
  | cons a as ih =>
    cases s with
    | nil => simp [isPrefixB]
    | cons b bs =>
      simp only [isPrefixB, Bool.and_eq_true, decide_eq_true_eq, ih,
        List.cons_append, List.cons.injEq]
      constructor
      · rintro ⟨rfl, t, rfl⟩
        exact ⟨t, rfl, rfl⟩
      · rintro ⟨t, rfl, rfl⟩
        exact ⟨rfl, t, rfl⟩

theorem isPrefixB_append (p t : Str) : isPrefixB p (p ++ t) = true :=
  (isPrefixB_iff p (p ++ t)).mpr ⟨t, rfl⟩

theorem isPrefixB_sub {p s : Str} (h : isPrefixB p s = true) : ∀ c ∈ p, c ∈ s := by
  obtain ⟨t, rfl⟩ := (isPrefixB_iff p s).mp h
  intro c hc
  exact List.mem_append_left _ hc

theorem isSubB_of_isPrefixB {n s : Str} (h : isPrefixB n s = true) :
    isSubB n s = true := by
  cases s with
  | nil => simpa [isSubB] using h
  | cons c t => simp [isSubB, h]

theorem isSubB_nil_pat (s : Str) : isSubB [] s = true := by
  cases s <;> simp [isSubB, isPrefixB]

theorem isSubB_self (u : Str) : isSubB u u = true := by
  have h := isPrefixB_append u []
  rw [List.append_nil] at h
  exact isSubB_of_isPrefixB h

theorem isSubB_append_left {n h : Str} (a : Str) (hs : isSubB n h = true) :
    isSubB n (a ++ h) = true := by
  induction a with
  | nil => simpa
  | cons x xs ih => simp [isSubB, ih]

theorem isSubB_append_right {n : Str} (b : Str) :
    ∀ (h : Str), isSubB n h = true → isSubB n (h ++ b) = true := by
  intro h
  induction h with
  | nil =>
    intro hs
    have hn : n = [] := by
      have hp : isPrefixB n [] = true := by simpa [isSubB] using hs
      rcases (isPrefixB_iff n []).mp hp with ⟨t, ht⟩
      cases n with
      | nil => rfl
      | cons c cs => simp at ht
    subst hn
    exact isSubB_nil_pat _
  | cons c t ih =>
    intro hs
    rw [isSubB, Bool.or_eq_true] at hs
    rcases hs with hpre | hsub
    · rcases (isPrefixB_iff n (c :: t)).mp hpre with ⟨u, hu⟩
      have : (c :: t) ++ b = n ++ (u ++ b) := by rw [hu, List.append_assoc]
      have hp : isPrefixB n ((c :: t) ++ b) = true :=
        (isPrefixB_iff _ _).mpr ⟨u ++ b, this⟩
      exact isSubB_of_isPrefixB hp
    · have h2 := ih hsub
      simp [isSubB, h2]

theorem isSubB_mem_joinStrSep {u : Str} (sep : Str) :
    ∀ (l : List Str), u ∈ l → isSubB u (joinStrSep sep l) = true := by
  intro l
  induction l with
  | nil => intro h; cases h
  | cons s rest ih =>
    intro h
    rcases List.mem_cons.mp h with rfl | hmem
    · cases rest with
      | nil => exact isSubB_self u
      | cons s2 r2 =>
        have : joinStrSep sep (u :: s2 :: r2) = u ++ (sep ++ joinStrSep sep (s2 :: r2)) := by
          simp [joinStrSep, List.append_assoc]
        rw [this]
        exact isSubB_of_isPrefixB (isPrefixB_append _ _)
    · cases rest with
      | nil => cases hmem
      | cons s2 r2 =>
        have h2 := ih hmem
        have : joinStrSep sep (s :: s2 :: r2) = (s ++ sep) ++ joinStrSep sep (s2 :: r2) := by
          simp [joinStrSep, List.append_assoc]
        rw [this]
        exact isSubB_append_left _ h2

theorem splitChar_not_mem {sep : Char} {s : Str} (h : sep ∉ s) :
    splitChar sep s = [s] := by
  induction s with
  | nil => rfl
  | cons c cs ih =>
    have hc : ¬ c = sep := fun e => h (by rw [← e]; exact List.mem_cons_self c cs)
    have hcs : sep ∉ cs := fun m => h (List.mem_cons_of_mem _ m)
    simp [splitChar, hc, ih hcs]

theorem splitChar_append {sep : Char} {a : Str} (b : Str) (h : sep ∉ a) :
    splitChar sep (a ++ sep :: b) = a :: splitChar sep b := by
  induction a with
  | nil => simp [splitChar]
  | cons x xs ih =>
    have hx : ¬ x = sep := fun e => h (by rw [← e]; exact List.mem_cons_self x xs)
    have hxs : sep ∉ xs := fun m => h (List.mem_cons_of_mem _ m)
    have h2 := ih hxs
    simp [splitChar, hx, h2]

theorem joinChar_cons {sep : Char} (s : Str) {r : List Str} (h : r ≠ []) :
    joinChar sep (s :: r) = s ++ sep :: joinChar sep r := by
  cases r with
  | nil => exact absurd rfl h
  | cons x xs => rfl

theorem splitChar_joinChar {sep : Char} :
    ∀ (segs : List Str), segs ≠ [] → (∀ s ∈ segs, sep ∉ s) →
      splitChar sep (joinChar sep segs) = segs := by
  intro segs
  induction segs with
  | nil => intro h _; exact absurd rfl h
  | cons s rest ih =>
    intro _ hs
    cases rest with
    | nil => exact splitChar_not_mem (hs s (List.mem_cons_self s []))
    | cons s2 rest2 =>
      rw [joinChar_cons s (by simp)]
      rw [splitChar_append _ (hs s (List.mem_cons_self _ _))]
      rw [ih (by simp) (fun t ht => hs t (List.mem_cons_of_mem _ ht))]

theorem mem_joinChar {sep : Char} {c : Char} :
    ∀ {segs : List Str}, c ∈ joinChar sep segs → c = sep ∨ ∃ s ∈ segs, c ∈ s := by
  intro segs
  induction segs with
  | nil => intro h; cases h
  | cons s rest ih =>
    intro h
    cases rest with
    | nil => exact Or.inr ⟨s, by simp, h⟩
    | cons s2 r2 =>
      rw [joinChar_cons s (by simp)] at h
      rcases List.mem_append.mp h with h1 | h2
      · exact Or.inr ⟨s, by simp, h1⟩
      · rcases List.mem_cons.mp h2 with rfl | h3
        · exact Or.inl rfl
        · rcases ih h3 with h4 | ⟨t, ht, hc⟩
          · exact Or.inl h4
          · exact Or.inr ⟨t, List.mem_cons_of_mem _ ht, hc⟩

theorem mem_splitChar_subset {sep : Char} :
    ∀ {l : Str} {x : Str}, x ∈ splitChar sep l → ∀ c ∈ x, c ∈ l := by
  intro l
  induction l with
  | nil =>
    intro x hx c hc
    simp [splitChar] at hx
    subst hx
    cases hc
  | cons a as ih =>
    intro x hx c hc
    by_cases ha : a = sep
    · subst ha
      simp only [splitChar, if_pos rfl] at hx
      rcases List.mem_cons.mp hx with rfl | h2
      · cases hc
      · exact List.mem_cons_of_mem _ (ih h2 c hc)
    · simp only [splitChar, if_neg ha] at hx
      rcases hr : splitChar sep as with _ | ⟨h0, t0⟩
      · rw [hr] at hx
        simp at hx
        subst hx
        rcases List.mem_cons.mp hc with rfl | h2
        · exact List.mem_cons_self _ _
        · cases h2
      · rw [hr] at hx
        rcases List.mem_cons.mp hx with rfl | h2
        · rcases List.mem_cons.mp hc with rfl | h2
          · exact List.mem_cons_self _ _
          · have : h0 ∈ splitChar sep as := by rw [hr]; exact List.mem_cons_self _ _
            exact List.mem_cons_of_mem _ (ih this c h2)
        · have : x ∈ splitChar sep as := by
            rw [hr]; exact List.mem_cons_of_mem _ h2
          exact List.mem_cons_of_mem _ (ih this c hc)

theorem joinChar_concat {sep : Char} (l : Str) :
    ∀ (xs : List Str), joinChar sep (xs ++ [l]) =
      if xs = [] then l else joinChar sep xs ++ sep :: l := by
  intro xs
  induction xs with
  | nil => simp [joinChar]
  | cons x xs2 ih =>
    rw [List.cons_append, joinChar_cons x (by simp)]
    rw [ih]
    cases xs2 with
    | nil => simp [joinChar]
    | cons y ys =>
      rw [if_neg (by simp), if_neg (by simp)]
      rw [joinChar_cons x (by simp)]
      simp [List.append_assoc]

theorem joinChar_last_absorb {sep : Char} (t : Str) (xs : List Str) (l : Str) :
    joinChar sep (xs ++ [l]) ++ t = joinChar sep (xs ++ [l ++ t]) := by
  rw [joinChar_concat, joinChar_concat]
  cases xs with
  | nil => simp
  | cons x xs2 => simp [List.append_assoc]

theorem lastIdxOf_not_mem {c : Char} {l : Str} (h : c ∉ l) : lastIdxOf c l = none := by
  induction l with
  | nil => rfl
  | cons a as ih =>
    rw [List.mem_cons, not_or] at h
    obtain ⟨h1, h2⟩ := h
    have h1b : ¬ a = c := fun e => h1 e.symm
    simp [lastIdxOf, ih h2, h1b]

theorem lastIdxOf_mem {c : Char} :
    ∀ {l : Str} {i : Nat}, lastIdxOf c l = some i → c ∈ l := by
  intro l
  induction l with
  | nil => intro i h; cases h
  | cons a as ih =>
    intro i h
    by_cases hm : c ∈ as
    · exact List.mem_cons_of_mem _ hm
    · simp only [lastIdxOf, lastIdxOf_not_mem hm] at h
      by_cases hac : a = c
      · cases hac; exact List.mem_cons_self _ _
      · rw [if_neg hac] at h; cases h

theorem lastIdxOf_append {c : Char} {b : Str} (hb : c ∉ b) :
    ∀ (a : Str), lastIdxOf c (a ++ c :: b) = some a.length := by
  intro a
  induction a with
  | nil =>
    simp only [List.nil_append, lastIdxOf, lastIdxOf_not_mem hb]
    simp
  | cons x xs ih =>
    simp only [List.cons_append, lastIdxOf, List.append_eq]
    rw [ih]
    rfl

theorem drop_len_succ_append (a b : Str) (c : Char) :
    (a ++ c :: b).drop (a.length + 1) = b := by
  have h1 : a ++ c :: b = (a ++ [c]) ++ b := by simp
  have h2 : a.length + 1 = (a ++ [c]).length := by simp
  rw [h1, h2, List.drop_left]

theorem map_norm_eq_self {l : Str} (h : '\\' ∉ l) :
    l.map (fun c => if c = '\\' then '/' else c) = l := by
  have hc : ∀ c ∈ l, (fun c => if c = '\\' then '/' else c) c = id c := by
    intro c hcm
    have hne : ¬ c = '\\' := fun e => h (by rw [← e]; exact hcm)
    simp [hne]
  rw [List.map_congr_left hc, List.map_id]

theorem mem_insertLe {le : α → α → Bool} {x a : α} :
    ∀ {l : List α}, x ∈ insertLe le a l ↔ x = a ∨ x ∈ l := by
  intro l
  induction l with
  | nil => simp [insertLe]
  | cons b bs ih =>
    simp only [insertLe]
    split
    · simp [List.mem_cons]
    · rw [List.mem_cons, ih, List.mem_cons]
      tauto

theorem mem_insSort {le : α → α → Bool} {x : α} :
    ∀ {l : List α}, x ∈ insSort le l ↔ x ∈ l := by
  intro l
  induction l with
  | nil => simp [insSort]
  | cons a as ih => simp [insSort, mem_insertLe, ih, List.mem_cons]

/-! ## Claim C9: cache key round-trip -/

theorem contains_of_parse_some {p : Str} {x : Str × Str}
    (h : parseStoredPackageRelativePath p = some x) : p.contains '@' = true := by
  simp only [parseStoredPackageRelativePath] at h
  split at h
  · cases h
  next leaf hL =>
    split at h
    · cases h
    next i hI =>
      have hmem : '@' ∈ leaf := lastIdxOf_mem hI
      have hleaf := List.mem_of_mem_getLast? hL
      have h2 : leaf ∈ splitChar '/' (p.map fun c => if c = '\\' then '/' else c) :=
        List.mem_of_mem_filter hleaf
      have h3 : '@' ∈ p.map fun c => if c = '\\' then '/' else c :=
        mem_splitChar_subset h2 _ hmem
      have h4 : '@' ∈ p := by
        rcases List.mem_map.mp h3 with ⟨c, hc, hfc⟩
        by_cases hb : c = '\\'
        · rw [hb] at hfc; simp at hfc
        · rw [if_neg hb] at hfc
          exact hfc ▸ hc
      have h5 : p.elem '@' = true := List.elem_iff.mpr h4
      simpa [List.contains] using h5

/-- C9 (amended): reverse-parsing the store-relative part of the canonical
cache path recovers the original cache key, for every package name made of
nonempty backslash-free slash-separated segments whose leaf contains no @,
and every nonempty version containing no @, slash or backslash. -/
theorem c9_cache_key_roundtrip (storeDir : Str) (scopeSegs : List Str)
    (leaf ver : Str)
    (hleafne : leaf ≠ [])
    (hleaf : ∀ c ∈ leaf, c ≠ '@' ∧ c ≠ '/' ∧ c ≠ '\\')
    (hverne : ver ≠ [])
    (hver : ∀ c ∈ ver, c ≠ '@' ∧ c ≠ '/' ∧ c ≠ '\\')
    (hscope : ∀ s ∈ scopeSegs, s ≠ [] ∧ ∀ c ∈ s, c ≠ '/' ∧ c ≠ '\\') :
    getStoredPackagePath storeDir (joinChar '/' (scopeSegs ++ [leaf])) ver =
      storeDir ++ '/' :: storedRelPath (joinChar '/' (scopeSegs ++ [leaf])) ver ∧
    parseStoredPackageRelativePath
        (storedRelPath (joinChar '/' (scopeSegs ++ [leaf])) ver) =
      some (joinChar '/' (scopeSegs ++ [leaf]), ver) := by
  refine ⟨rfl, ?_⟩
  have habs : storedRelPath (joinChar '/' (scopeSegs ++ [leaf])) ver =
      joinChar '/' (scopeSegs ++ [leaf ++ '@' :: ver]) := by
    unfold storedRelPath
    exact joinChar_last_absorb ('@' :: ver) scopeSegs leaf
  have hverAt : '@' ∉ ver := fun hm => ((hver _ hm).1) rfl
  have hnb : '\\' ∉ joinChar '/' (scopeSegs ++ [leaf ++ '@' :: ver]) := by
    intro hmem
    rcases mem_joinChar hmem with h | ⟨s, hs, hc⟩
    · exact absurd h (by decide)
    · rcases List.mem_append.mp hs with h1 | h2
      · exact (((hscope s h1).2 _ hc).2) rfl
      · rw [List.mem_singleton] at h2
        subst h2
        rcases List.mem_append.mp hc with h3 | h4
        · exact ((hleaf _ h3).2.2) rfl
        · rcases List.mem_cons.mp h4 with h5 | h6
          · exact absurd h5 (by decide)
          · exact ((hver _ h6).2.2) rfl
  have hsep : ∀ s ∈ scopeSegs ++ [leaf ++ '@' :: ver], '/' ∉ s := by
    intro s hs hmem
    rcases List.mem_append.mp hs with h1 | h2
    · exact (((hscope s h1).2 _ hmem).1) rfl
    · rw [List.mem_singleton] at h2
      subst h2
      rcases List.mem_append.mp hmem with h3 | h4
      · exact ((hleaf _ h3).2.1) rfl
      · rcases List.mem_cons.mp h4 with h5 | h6
        · exact absurd h5 (by decide)
        · exact ((hver _ h6).2.1) rfl
  have hfilt : ∀ a ∈ scopeSegs ++ [leaf ++ '@' :: ver], (a ≠ ([] : Str)) := by
    intro a ha
    rcases List.mem_append.mp ha with h1 | h2
    · exact (hscope a h1).1
    · rw [List.mem_singleton] at h2
      subst h2
      cases leaf with
      | nil => exact absurd rfl hleafne
      | cons c cs => simp
  have hfiltB : ∀ a ∈ scopeSegs ++ [leaf ++ '@' :: ver],
      (decide (a ≠ ([] : Str))) = true := fun a ha => decide_eq_true (hfilt a ha)
  rw [habs]
  simp only [parseStoredPackageRelativePath, map_norm_eq_self hnb,
    splitChar_joinChar (scopeSegs ++ [leaf ++ '@' :: ver]) (by simp) hsep,
    List.filter_eq_self.mpr hfiltB, List.getLast?_concat,
    lastIdxOf_append hverAt leaf, List.dropLast_concat]
  have hlp : 0 < leaf.length := List.length_pos.mpr hleafne
  have hvp : 0 < ver.length := List.length_pos.mpr hverne
  have hi0 : ¬ leaf.length = 0 := by omega
  have hi1 : ¬ leaf.length = (leaf ++ '@' :: ver).length - 1 := by
    simp only [List.length_append, List.length_cons]
    omega
  rw [if_neg hi0, if_neg hi1]
  rw [List.take_left, drop_len_succ_append]
  rw [joinChar_concat]
  by_cases hsc : scopeSegs = []
  · subst hsc; simp
  · rw [if_pos hsc, if_neg hsc]

/-- C9 witness: the round trip at the scoped key of the claim example. -/
theorem c9_cache_key_roundtrip_witness :
    parseStoredPackageRelativePath
        (storedRelPath (joinChar '/' (["@scope".data] ++ ["name".data])) "1.0.0".data) =
      some (joinChar '/' (["@scope".data] ++ ["name".data]), "1.0.0".data) :=
  (c9_cache_key_roundtrip [] ["@scope".data] "name".data "1.0.0".data
    (by decide) (by decide) (by decide) (by decide) (by decide)).2

/-- C9 counterexample: the version 1/2 is nonempty and contains no @, yet
reverse-parsing the store-relative path of the key (pkg, 1/2) yields no
key at all, not the original pair. -/
theorem c9_cache_key_roundtrip_cex :
    "1/2".data ≠ ([] : Str) ∧ '@' ∉ "1/2".data ∧
    parseStoredPackageRelativePath (storedRelPath "pkg".data "1/2".data) = none := by
  decide

/-! ## Claim C5: store enumeration -/

theorem collectEntry_eq_some {storeDir : Str} {e : FsEntry}
    {entry : StoredPackageEntry} :
    collectEntry storeDir e = some entry ↔
      (e.stat = some true ∧
       parseStoredPackageRelativePath e.rel = some (entry.packageName, entry.version) ∧
       entry.outputDir = joinPath storeDir e.rel) := by
  obtain ⟨pn, pv, po⟩ := entry
  rcases hp : parseStoredPackageRelativePath e.rel with _ | ⟨n, v⟩
  · by_cases hc : e.rel.contains '@'
    · simp [collectEntry, hp, hc]
    · simp [collectEntry, hp, hc]
  · have hc : e.rel.contains '@' = true := contains_of_parse_some hp
    rcases hs : e.stat with _ | isDir
    · simp [collectEntry, hp, hc, hs]
    · cases isDir
      · simp [collectEntry, hp, hc, hs]
      · simp only [collectEntry, hp, hc, hs, if_true, Option.some.injEq,
          StoredPackageEntry.mk.injEq, Prod.mk.injEq, true_and]
        constructor
        · rintro ⟨rfl, rfl, rfl⟩
          exact ⟨⟨rfl, rfl⟩, rfl⟩
        · rintro ⟨⟨rfl, rfl⟩, h3⟩
          exact ⟨rfl, rfl, h3.symm⟩

/-- C5: an entry is reported by getStoredPackages exactly when some listed
child of the store root reverse-parses to its key, stats successfully and
is a directory; children whose stat fails or which are not directories are
skipped, and a failing listing yields the empty enumeration rather than an
error. -/
theorem c5_store_listing (le : StoredPackageEntry → StoredPackageEntry → Bool)
    (storeDir : Str) (entries : List FsEntry) (entry : StoredPackageEntry) :
    (entry ∈ getStoredPackages le storeDir (some entries) ↔
      ∃ e ∈ entries, e.stat = some true ∧
        parseStoredPackageRelativePath e.rel = some (entry.packageName, entry.version) ∧
        entry.outputDir = joinPath storeDir e.rel) ∧
    getStoredPackages le storeDir none = [] := by
  constructor
  · rw [getStoredPackages, mem_insSort]
    simp only [collectStoredPackages]
    rw [List.mem_filterMap]
    constructor
    · rintro ⟨e, he, hsome⟩
      exact ⟨e, he, collectEntry_eq_some.mp hsome⟩
    · rintro ⟨e, he, h1, h2, h3⟩
      exact ⟨e, he, collectEntry_eq_some.mpr ⟨h1, h2, h3⟩⟩
  · rfl

/-! ## Claim C6: retrying fetcher -/

theorem FetchSpec_stop (outcomes : Nat → AttemptOutcome) (maxAttempts attempt : Nat)
    (v : Except Str HttpResp)
    (_h1 : 1 ≤ attempt) (h2 : attempt ≤ maxAttempts)
    (hterm : attempt < maxAttempts → retryableOutcome (outcomes attempt) = false)
    (hv1 : ∀ r, outcomes attempt = .resp r → v = .ok r)
    (hv2 : ∀ m, outcomes attempt = .throwErr m → v = .error m) :
    FetchSpec outcomes maxAttempts attempt (v, attempt, []) := by
  refine ⟨le_refl _, h2, ?_, ?_, hterm, hv1, hv2⟩
  · dsimp only
    rw [Nat.sub_self]
    rfl
  · intro i hi1 hi2
    dsimp only at hi2
    omega

theorem FetchSpec_step (outcomes : Nat → AttemptOutcome) (maxAttempts attempt : Nat)
    (next : Except Str HttpResp × Nat × List Nat)
    (h1 : 1 ≤ attempt)
    (hretry : retryableOutcome (outcomes attempt) = true)
    (hnext : FetchSpec outcomes maxAttempts (attempt + 1) next) :
    FetchSpec outcomes maxAttempts attempt
      (next.1, next.2.1, 150 * 2 ^ (attempt - 1) :: next.2.2) := by
  obtain ⟨n1, n2, n3, n4, n5, n6, n7⟩ := hnext
  refine ⟨?_, n2, ?_, ?_, n5, n6, n7⟩
  · dsimp only
    omega
  · dsimp only
    have hk : next.2.1 - attempt = (next.2.1 - (attempt + 1)) + 1 := by omega
    have ha : attempt - 1 + 1 = attempt := by omega
    rw [n3, hk, List.range'_succ, List.map_cons, ha, Nat.add_sub_cancel]
  · intro i hi1 hi2
    dsimp only at hi2
    rcases Nat.eq_or_lt_of_le hi1 with rfl | hgt
    · exact hretry
    · exact n4 i (by omega) hi2

theorem fetchGo_spec (outcomes : Nat → AttemptOutcome) (maxAttempts : Nat) :
    ∀ (remaining attempt : Nat), 1 ≤ attempt →
      attempt + remaining = maxAttempts + 1 → 1 ≤ remaining →
      FetchSpec outcomes maxAttempts attempt
        (fetchGo outcomes maxAttempts remaining attempt) := by
  intro remaining
  induction remaining with
  | zero => intro attempt _ _ h3; omega
  | succ rem ih =>
    intro attempt h1 h2 _
    rcases ho : outcomes attempt with m | r
    · simp only [fetchGo, ho]
      split
      next hc =>
        simp only [Bool.or_eq_true, decide_eq_true_eq, Bool.not_eq_true'] at hc
        refine FetchSpec_stop outcomes maxAttempts attempt _ h1 (by omega) ?_ ?_ ?_
        · intro hlt
          rcases hc with hc1 | hc2
          · omega
          · rw [ho]
            simp only [retryableOutcome]
            exact hc2
        · intro r2 hr
          rw [ho] at hr
          cases hr
        · intro m2 hm
          rw [ho] at hm
          cases hm
          rfl
      next hc =>
        simp only [Bool.or_eq_true, decide_eq_true_eq, Bool.not_eq_true', not_or] at hc
        obtain ⟨hne, hretry⟩ := hc
        have hr2 : isRetryableError m = true := by
          cases hb : isRetryableError m
          · exact absurd hb hretry
          · rfl
        have hnext := ih (attempt + 1) (by omega) (by omega) (by omega)
        exact FetchSpec_step outcomes maxAttempts attempt _ h1
          (by rw [ho]
              simp only [retryableOutcome]
              exact hr2) hnext
    · simp only [fetchGo, ho]
      split
      next hc =>
        simp only [Bool.or_eq_true, decide_eq_true_eq, Bool.not_eq_true'] at hc
        refine FetchSpec_stop outcomes maxAttempts attempt _ h1 (by omega) ?_ ?_ ?_
        · intro hlt
          rw [ho]
          rcases hc with (hc1 | hc2) | hc3
          · simp only [retryableOutcome, hc1, Bool.not_true, Bool.false_and]
          · simp only [retryableOutcome, hc2, Bool.and_false]
          · omega
        · intro r2 hr
          rw [ho] at hr
          cases hr
          rfl
        · intro m2 hm
          rw [ho] at hm
          cases hm
      next hc =>
        simp only [Bool.or_eq_true, decide_eq_true_eq, Bool.not_eq_true', not_or] at hc
        obtain ⟨⟨hok, hcont⟩, hne⟩ := hc
        have hok2 : respOkStatus r.status = false := by
          cases hb : respOkStatus r.status
          · rfl
          · exact absurd hb hok
        have hcont2 : RETRYABLE_STATUS_CODES.contains r.status = true := by
          cases hb : RETRYABLE_STATUS_CODES.contains r.status
          · exact absurd hb hcont
          · rfl
        have hnext := ih (attempt + 1) (by omega) (by omega) (by omega)
        exact FetchSpec_step outcomes maxAttempts attempt _ h1
          (by rw [ho]
              simp only [retryableOutcome, hok2, hcont2, Bool.not_false, Bool.true_and]) hnext

/-- C6: fetchWithRetry performs at most three attempts; before retry k+1 it
waits 150 times 2 to the k-1; an attempt is retried only on a transient
denylist transport error or a retryable status; a response with a
non-retryable status, and any response obtained on the final attempt, is
returned unchanged, and a non-transient transport error, and any transport
error on the final attempt, is rethrown unchanged. -/
theorem c6_fetch_with_retry (outcomes : Nat → AttemptOutcome) :
    1 ≤ (fetchWithRetry outcomes).2.1 ∧ (fetchWithRetry outcomes).2.1 ≤ 3 ∧
    (fetchWithRetry outcomes).2.2 =
      (List.range ((fetchWithRetry outcomes).2.1 - 1)).map (fun k => 150 * 2 ^ k) ∧
    (∀ i, 1 ≤ i → i < (fetchWithRetry outcomes).2.1 →
      retryableOutcome (outcomes i) = true) ∧
    ((fetchWithRetry outcomes).2.1 < 3 →
      retryableOutcome (outcomes (fetchWithRetry outcomes).2.1) = false) ∧
    (∀ r, outcomes (fetchWithRetry outcomes).2.1 = AttemptOutcome.resp r →
      (fetchWithRetry outcomes).1 = Except.ok r) ∧
    (∀ m, outcomes (fetchWithRetry outcomes).2.1 = AttemptOutcome.throwErr m →
      (fetchWithRetry outcomes).1 = Except.error m) := by
  have h := fetchGo_spec outcomes 3 3 1 (by omega) (by omega) (by omega)
  obtain ⟨a1, a2, a3, a4, a5, a6, a7⟩ := h
  refine ⟨a1, a2, ?_, a4, a5, a6, a7⟩
  rw [List.range_eq_range']
  exact a3

/-- C6 witness: a first-attempt 200 response is returned unchanged. -/
theorem c6_fetch_with_retry_witness :
    (fetchWithRetry (fun _ => AttemptOutcome.resp ⟨200, []⟩)).1 =
      Except.ok (⟨200, []⟩ : HttpResp) := by
  have h := c6_fetch_with_retry (fun _ => AttemptOutcome.resp ⟨200, []⟩)
  exact h.2.2.2.2.2.1 ⟨200, []⟩ rfl

/-! ## Claim C1: atomic download and extraction -/

/-- C1: whenever downloadAndExtract fails after creating the temporary
extraction directory (transport error, non-2xx response, missing body or
tar error), the resulting filesystem state has no entry at the final cache
path and no temporary directory left, regardless of the initial state; on
success the trace is exactly cleanup, parent creation, temporary creation
and a final rename, and before that last rename the final path never
exists. -/
theorem c1_download_atomicity (env : DlEnv) (s0 : FsState) :
    (∀ m, (downloadAndExtract env).1 = Except.error m →
      applyOps s0 (downloadAndExtract env).2 = ⟨false, false⟩) ∧
    ((downloadAndExtract env).1 = Except.ok () →
      (downloadAndExtract env).2 =
        [FsOp.rmFinal, FsOp.mkdirParent, FsOp.mkTemp, FsOp.renameTempToFinal] ∧
      ∀ k, 1 ≤ k → k < 4 →
        (applyOps s0 ((downloadAndExtract env).2.take k)).finalExists = false) := by
  obtain ⟨f, tarOk, tarMsg⟩ := env
  have herr : applyOps s0 [FsOp.rmFinal, FsOp.mkdirParent, FsOp.mkTemp, FsOp.rmTemp] =
      ⟨false, false⟩ := by
    simp [applyOps, applyOp]
  cases f with
  | throwErr m2 =>
    refine ⟨fun m hm => ?_, fun hm => ?_⟩
    · simpa [downloadAndExtract] using herr
    · simp [downloadAndExtract] at hm
  | resp status statusText hasBody =>
    cases hok : respOkStatus status with
    | false =>
      refine ⟨fun m hm => ?_, fun hm => ?_⟩
      · simpa [downloadAndExtract, hok] using herr
      · simp [downloadAndExtract, hok] at hm
    | true =>
      cases hasBody with
      | false =>
        refine ⟨fun m hm => ?_, fun hm => ?_⟩
        · simpa [downloadAndExtract, hok] using herr
        · simp [downloadAndExtract, hok] at hm
      | true =>
        cases tarOk with
        | false =>
          refine ⟨fun m hm => ?_, fun hm => ?_⟩
          · simpa [downloadAndExtract, hok] using herr
          · simp [downloadAndExtract, hok] at hm
        | true =>
          refine ⟨fun m hm => ?_, fun hm => ?_⟩
          · simp [downloadAndExtract, hok] at hm
          · have htr : (downloadAndExtract ⟨FetchOutcome.resp status statusText true,
                true, tarMsg⟩).2 =
                [FsOp.rmFinal, FsOp.mkdirParent, FsOp.mkTemp, FsOp.renameTempToFinal] := by
              simp [downloadAndExtract, hok]
            refine ⟨htr, ?_⟩
            intro k h1 h2
            rw [htr]
            interval_cases k <;> simp [applyOps, applyOp]

/-- C1 witness: a 500 response on a state that previously had a final entry
leaves neither a final entry nor a temporary directory. -/
theorem c1_download_atomicity_witness :
    applyOps ⟨true, false⟩
      (downloadAndExtract ⟨FetchOutcome.resp 500 [] true, true, []⟩).2 =
      ⟨false, false⟩ :=
  (c1_download_atomicity ⟨FetchOutcome.resp 500 [] true, true, []⟩ ⟨true, false⟩).1
    ("Failed to download: ".data ++ natStr 500 ++ ' ' :: []) rfl

/-! ## Claims C3 and C7: download fallback and strategy exhaustion -/

theorem isSubB_cons {n t : Str} (c : Char) (h : isSubB n t = true) :
    isSubB n (c :: t) = true := by
  simp [isSubB, h]

theorem runFallbacks_attempts_prefix (env : Str → DlEnv) :
    ∀ (urls : List Str) (le : Option Str),
      ∃ k, (runFallbacks env urls le).2 = urls.take k := by
  intro urls
  induction urls with
  | nil => intro le; exact ⟨0, rfl⟩
  | cons u us ih =>
    intro le
    simp only [runFallbacks]
    cases hd : dlResult (env u) with
    | ok v => exact ⟨1, by simp⟩
    | error m =>
      obtain ⟨k, hk⟩ := ih (some m)
      exact ⟨k + 1, by simp [hk]⟩

theorem runFallbacks_all_fail (env : Str → DlEnv) :
    ∀ (urls : List Str) (le : Option Str), urls ≠ [] →
      (∀ u ∈ urls, ∃ e, dlResult (env u) = Except.error e) →
      ∃ m, (runFallbacks env urls le).1 = FallbackOut.exhausted (some m) := by
  intro urls
  induction urls with
  | nil => intro le h _; exact absurd rfl h
  | cons u us ih =>
    intro le _ hall
    obtain ⟨e, he⟩ := hall u (List.mem_cons_self u us)
    simp only [runFallbacks, he]
    cases us with
    | nil => exact ⟨e, by simp [runFallbacks]⟩
    | cons u2 us2 =>
      obtain ⟨m, hm⟩ := ih (some e) (by simp)
        (fun v hv => hall v (List.mem_cons_of_mem _ hv))
      exact ⟨m, by simp [hm]⟩

theorem defaultBranchUrls_main_master (host : Host) (owner rn : Str)
    (d : Option Str) :
    ∃ u1 u2, getDefaultBranchTarballUrls ⟨host, owner, rn, d⟩ = [u1, u2] ∧
      isSubB "main".data u1 = true ∧ isSubB "master".data u2 = true := by
  cases host with
  | github =>
    exact ⟨_, _, rfl, isSubB_append_left _ (by decide),
      isSubB_append_left _ (by decide)⟩
  | gitlab =>
    exact ⟨_, _, rfl, isSubB_append_left _ (by decide),
      isSubB_append_left _ (by decide)⟩
  | bitbucket =>
    exact ⟨_, _, rfl, isSubB_append_left _ (by decide),
      isSubB_append_left _ (by decide)⟩

/-- C3: in the no-subdirectory path with a resolved tag, an HTTP 404
failure of the tag-archive download is swallowed and the default-branch
URLs (main before master) are then attempted in order, while a tag-archive
failure that is not a 404 download failure propagates immediately with no
default-branch attempt. -/
theorem c3_download_fallback (host : Host) (owner repoName tag : Str)
    (env : Str → DlEnv) (sparse : Except Str Unit) :
    (∀ statusText hasBody,
      (env (getTagTarballUrl ⟨host, owner, repoName, none⟩ tag)).fetch =
        FetchOutcome.resp 404 statusText hasBody →
      (downloadRepositorySource ⟨host, owner, repoName, none⟩ (some tag) env
          sparse).2 =
        getTagTarballUrl ⟨host, owner, repoName, none⟩ tag ::
          (runFallbacks env
            (getDefaultBranchTarballUrls ⟨host, owner, repoName, none⟩) none).2 ∧
      ∃ k, (runFallbacks env
          (getDefaultBranchTarballUrls ⟨host, owner, repoName, none⟩) none).2 =
        (getDefaultBranchTarballUrls ⟨host, owner, repoName, none⟩).take k) ∧
    (∀ m, dlResult (env (getTagTarballUrl ⟨host, owner, repoName, none⟩ tag)) =
        Except.error m →
      isSubB sentinel404 m = false →
      downloadRepositorySource ⟨host, owner, repoName, none⟩ (some tag) env sparse =
        (Except.error m, [getTagTarballUrl ⟨host, owner, repoName, none⟩ tag])) ∧
    (∃ u1 u2, getDefaultBranchTarballUrls ⟨host, owner, repoName, none⟩ = [u1, u2] ∧
      isSubB "main".data u1 = true ∧ isSubB "master".data u2 = true) := by
  refine ⟨?_, ?_, defaultBranchUrls_main_master host owner repoName none⟩
  · intro statusText hasBody hfetch
    have h404 : respOkStatus 404 = false := by decide
    have hm : dlResult (env (getTagTarballUrl ⟨host, owner, repoName, none⟩ tag)) =
        Except.error ("Failed to download: ".data ++ natStr 404 ++
          ' ' :: statusText) := by
      simp [dlResult, downloadAndExtract, hfetch, h404]
    have hsub : isSubB sentinel404
        ("Failed to download: ".data ++ natStr 404 ++ ' ' :: statusText) = true := by
      have he2 : "Failed to download: ".data ++ natStr 404 = sentinel404 := by decide
      rw [he2]
      exact isSubB_of_isPrefixB (isPrefixB_append _ _)
    constructor
    · simp only [downloadRepositorySource, hm, hsub, Bool.not_true]
      rcases hfb : (runFallbacks env
          (getDefaultBranchTarballUrls ⟨host, owner, repoName, none⟩) none).1
        with _ | le
      · simp [hfb]
      · cases le <;> simp [hfb]
    · exact runFallbacks_attempts_prefix env _ none
  · intro m hm hscond
    simp [downloadRepositorySource, hm, hscond]

/-- C3 witness: a transport-error failure of the tag download propagates
unchanged with only the tag URL attempted. -/
theorem c3_download_fallback_witness :
    downloadRepositorySource ⟨Host.github, "o".data, "r".data, none⟩
        (some "v1".data)
        (fun _ => ⟨FetchOutcome.throwErr "boom".data, true, []⟩) (Except.ok ()) =
      (Except.error "boom".data,
       [getTagTarballUrl ⟨Host.github, "o".data, "r".data, none⟩ "v1".data]) :=
  ((c3_download_fallback Host.github "o".data "r".data "v1".data
      (fun _ => ⟨FetchOutcome.throwErr "boom".data, true, []⟩)
      (Except.ok ())).2.1) "boom".data rfl (by decide)

/-- C7 (amended): when the tag tarball attempt (if any) failed with a 404
download error and every default-branch attempt failed, the surfaced error
is a single message listing every attempted default-branch URL (the
attempted tag tarball URL is not part of the listing). -/
theorem c7_aggregate_error (host : Host) (owner repoName : Str)
    (tag? : Option Str) (env : Str → DlEnv) (sparse : Except Str Unit)
    (htag : ∀ t, tag? = some t →
      ∃ e, dlResult (env (getTagTarballUrl ⟨host, owner, repoName, none⟩ t)) =
          Except.error e ∧ isSubB sentinel404 e = true)
    (hfail : ∀ u ∈ getDefaultBranchTarballUrls ⟨host, owner, repoName, none⟩,
      ∃ e, dlResult (env u) = Except.error e) :
    ∃ m, (downloadRepositorySource ⟨host, owner, repoName, none⟩ tag? env
        sparse).1 = Except.error m ∧
      ∀ u ∈ getDefaultBranchTarballUrls ⟨host, owner, repoName, none⟩,
        isSubB u m = true := by
  have hne : getDefaultBranchTarballUrls ⟨host, owner, repoName, none⟩ ≠ [] := by
    cases host <;> simp [getDefaultBranchTarballUrls]
  obtain ⟨mlast, hml⟩ := runFallbacks_all_fail env _ none hne hfail
  have hcontain : ∀ u ∈ getDefaultBranchTarballUrls ⟨host, owner, repoName, none⟩,
      isSubB u (mlast ++ " (attempted: ".data ++
        joinStrSep ", ".data
          (getDefaultBranchTarballUrls ⟨host, owner, repoName, none⟩) ++
        ")".data) = true := by
    intro u hu
    have h1 := isSubB_mem_joinStrSep ", ".data _ hu
    exact isSubB_append_right _ _ (isSubB_append_left _ h1)
  cases tag? with
  | none =>
    refine ⟨_, ?_, hcontain⟩
    simp [downloadRepositorySource, hml]
  | some t =>
    obtain ⟨e, he, hesub⟩ := htag t rfl
    refine ⟨_, ?_, hcontain⟩
    simp [downloadRepositorySource, he, hesub, hml]

/-- C7 counterexample: with a resolved tag and every URL answering 404, the
tag URL is among the attempted URLs but the surfaced aggregate error does
not name it. -/
theorem c7_aggregate_error_cex :
    (downloadRepositorySource ⟨Host.github, "o".data, "r".data, none⟩
        (some "v1".data) (fun _ => ⟨FetchOutcome.resp 404 [] true, true, []⟩)
        (Except.ok ())).2.contains
      (getTagTarballUrl ⟨Host.github, "o".data, "r".data, none⟩ "v1".data) = true ∧
    isSubB (getTagTarballUrl ⟨Host.github, "o".data, "r".data, none⟩ "v1".data)
      (errMsgOf (downloadRepositorySource ⟨Host.github, "o".data, "r".data, none⟩
        (some "v1".data) (fun _ => ⟨FetchOutcome.resp 404 [] true, true, []⟩)
        (Except.ok ())).1) = false := by
  decide

/-- C7 witness: with no tag and both default-branch attempts failing with
404, the aggregate error names both fallback URLs. -/
theorem c7_aggregate_error_witness :
    ∃ m, (downloadRepositorySource ⟨Host.gitlab, "o".data, "r".data, none⟩ none
        (fun _ => ⟨FetchOutcome.resp 404 [] true, true, []⟩) (Except.ok ())).1 =
        Except.error m ∧
      ∀ u ∈ getDefaultBranchTarballUrls ⟨Host.gitlab, "o".data, "r".data, none⟩,
        isSubB u m = true :=
  c7_aggregate_error Host.gitlab "o".data "r".data none
    (fun _ => ⟨FetchOutcome.resp 404 [] true, true, []⟩) (Except.ok ())
    (fun _ ht => Option.noConfusion ht)
    (fun _ _ => ⟨"Failed to download: ".data ++ natStr 404 ++ ' ' :: [], rfl⟩)

/-! ## Claim C2: tag resolution priority -/

theorem tokenizeVersion_all_lit : ∀ {v : Str}, (∀ c ∈ v, c ≠ '+') →
    tokenizeVersion v = v.map RTok.lit := by
  intro v
  induction v with
  | nil => intro _; rfl
  | cons c rest ih =>
    intro h
    cases rest with
    | nil => rfl
    | cons d rest2 =>
      have hd : ¬ d = '+' :=
        h d (List.mem_cons_of_mem _ (List.mem_cons_self _ _))
      have h2 : ∀ x ∈ d :: rest2, x ≠ '+' :=
        fun x hx => h x (List.mem_cons_of_mem _ hx)
      simp [tokenizeVersion, hd, ih h2]

theorem matchToksF_map_lit : ∀ (p t : Str),
    matchToksF t.length (p.map RTok.lit) t = isPrefixB p t := by
  intro p
  induction p with
  | nil => intro t; cases t <;> rfl
  | cons c cs ih =>
    intro t
    cases t with
    | nil => rfl
    | cons d ds =>
      simp only [List.map_cons, List.length_cons, matchToksF, isPrefixB]
      rw [ih ds]

theorem matchToks_map_lit (p t : Str) : matchToks (p.map RTok.lit) t = isPrefixB p t :=
  matchToksF_map_lit p t

theorem regexTestB_map_lit : ∀ (p t : Str), regexTestB (p.map RTok.lit) t = isSubB p t := by
  intro p t
  induction t with
  | nil => simp [regexTestB, isSubB, matchToks_map_lit]
  | cons c rest ih => simp [regexTestB, isSubB, matchToks_map_lit, ih]

/-- C2 (amended): for every tag listing, package name whose @ start implies
a scope slash, and version free of regex metacharacters, findTag agrees
with the specified resolver: the first tag matching, in order, v-version
exact, version exact, packageName at version exact, unscoped at version
exact for scoped names, then the first tag containing the version as a
literal substring; a failed or empty listing, or no match, yields no tag
with the fallback flag set. -/
theorem c2_find_tag (tags? : Option (List Str)) (version packageName : Str)
    (hsafe : ∀ c ∈ version, safeVersionChar c = true)
    (hscoped : isPrefixB "@".data packageName = true →
      packageName.contains '/' = true) :
    findTag tags? version packageName = specFindTag tags? version packageName := by
  cases tags? with
  | none => rfl
  | some tags =>
    have hplus : ∀ c ∈ version, c ≠ '+' := by
      intro c hc e
      have hs := hsafe c hc
      rw [e] at hs
      exact absurd hs (by decide)
    have hfz : (fun t => regexTestB (tokenizeVersion version) t) =
        (fun t => isSubB version t) := by
      funext t
      rw [tokenizeVersion_all_lit hplus, regexTestB_map_lit]
    by_cases hat : isPrefixB "@".data packageName = true
    · simp only [findTag, specFindTag, hfz, hat, hscoped hat, Bool.and_self,
        if_true]
    · have hat2 : isPrefixB "@".data packageName = false := by
        cases hb : isPrefixB "@".data packageName
        · rfl
        · exact absurd hb hat
      simp only [findTag, specFindTag, hfz, hat2, Bool.false_and, if_false]

/-- C2 witness: the resolver agrees with the specified priority on the two
examples of the claim, and both examples evaluate as the claim states. -/
theorem c2_find_tag_witness :
    findTag (some ["1.2.0".data, "v1.2.0".data, "pkg@1.2.0".data]) "1.2.0".data
        "pkg".data =
      specFindTag (some ["1.2.0".data, "v1.2.0".data, "pkg@1.2.0".data])
        "1.2.0".data "pkg".data ∧
    findTag (some ["1.2.0".data, "v1.2.0".data, "pkg@1.2.0".data]) "1.2.0".data
        "pkg".data = ⟨some "v1.2.0".data, false⟩ ∧
    findTag (some ["release-1.2.0-rc".data]) "1.2.0".data "pkg".data =
      ⟨some "release-1.2.0-rc".data, false⟩ := by
  refine ⟨c2_find_tag _ _ _ (by decide) (by decide), by decide, by decide⟩

/-- C2 counterexample: for the version 1+2 the compiled fuzzy pattern is a
regex rather than a literal substring: the tag 112 is chosen although it
does not contain 1+2, where the specified resolver reports no tag. -/
theorem c2_find_tag_cex :
    findTag (some ["112".data]) "1+2".data "pkg".data =
      ⟨some "112".data, false⟩ ∧
    isSubB "1+2".data "112".data = false ∧
    specFindTag (some ["112".data]) "1+2".data "pkg".data = ⟨none, true⟩ := by
  decide

/-! ## Claim C10: prune dry-run -/

theorem pruneStep_foldl (keepReasons : List (Str × List Str)) :
    ∀ (stored : List StoredPackageEntry) (a1 : List PruneCacheRemoved) (k : Nat)
      (d1 d2 : List StoredPackageEntry),
      (stored.foldl (pruneStep true keepReasons) (a1, k, d1)).1 =
        (stored.foldl (pruneStep false keepReasons) (a1, k, d2)).1 ∧
      (stored.foldl (pruneStep true keepReasons) (a1, k, d1)).2.1 =
        (stored.foldl (pruneStep false keepReasons) (a1, k, d2)).2.1 ∧
      (stored.foldl (pruneStep true keepReasons) (a1, k, d1)).2.2 = d1 := by
  intro stored
  induction stored with
  | nil => intro a1 k d1 d2; exact ⟨rfl, rfl, rfl⟩
  | cons e es ih =>
    intro a1 k d1 d2
    by_cases hr : ((lookupAssoc (e.packageName ++ '@' :: e.version)
        keepReasons).getD []).length > 0
    · have h1 : pruneStep true keepReasons (a1, k, d1) e = (a1, k + 1, d1) := by
        simp [pruneStep, hr]
      have h2 : pruneStep false keepReasons (a1, k, d2) e = (a1, k + 1, d2) := by
        simp [pruneStep, hr]
      rw [List.foldl_cons, List.foldl_cons, h1, h2]
      exact ih a1 (k + 1) d1 d2
    · have h1 : pruneStep true keepReasons (a1, k, d1) e =
          (a1 ++ [⟨e.packageName, e.version, e.outputDir,
             "not matched by keep rules".data⟩], k, d1) := by
        simp [pruneStep, hr]
      have h2 : pruneStep false keepReasons (a1, k, d2) e =
          (a1 ++ [⟨e.packageName, e.version, e.outputDir,
             "not matched by keep rules".data⟩], k, d2 ++ [e]) := by
        simp [pruneStep, hr]
      rw [List.foldl_cons, List.foldl_cons, h1, h2]
      exact ih _ k d1 (d2 ++ [e])

/-- C10: with the same store state and keep-rule inputs, a dry run reports
exactly the same removed set as a real run, deletes nothing, and reports
an unchanged total; every stored entry survives a dry run. -/
theorem c10_prune_dry_run (storeDir : Str) (stored : List StoredPackageEntry)
    (verDesc : StoredPackageEntry → StoredPackageEntry → Bool)
    (projectTargets : Except Str (List (Str × List Str)))
    (keepLatest? : Option Int) (keepProj? : Option Bool)
    (keep? : Option (List Str)) :
    (pruneCache storeDir stored verDesc projectTargets
        ⟨keepLatest?, keepProj?, keep?, some true⟩).1.removed =
      (pruneCache storeDir stored verDesc projectTargets
        ⟨keepLatest?, keepProj?, keep?, some false⟩).1.removed ∧
    (pruneCache storeDir stored verDesc projectTargets
        ⟨keepLatest?, keepProj?, keep?, some true⟩).2 = [] ∧
    (pruneCache storeDir stored verDesc projectTargets
        ⟨keepLatest?, keepProj?, keep?, some true⟩).1.totalAfter =
      (pruneCache storeDir stored verDesc projectTargets
        ⟨keepLatest?, keepProj?, keep?, some true⟩).1.totalBefore ∧
    stored.filter
      (fun e => !((pruneCache storeDir stored verDesc projectTargets
        ⟨keepLatest?, keepProj?, keep?, some true⟩).2.contains e)) = stored := by
  have hmain : ∀ (K : List (Str × List Str)),
      (stored.foldl (pruneStep true K) ([], 0, [])).1 =
        (stored.foldl (pruneStep false K) ([], 0, [])).1 ∧
      (stored.foldl (pruneStep true K) ([], 0, [])).2.2 = [] :=
    fun K => ⟨(pruneStep_foldl K stored [] 0 [] []).1,
      (pruneStep_foldl K stored [] 0 [] []).2.2⟩
  have hdel : (pruneCache storeDir stored verDesc projectTargets
      ⟨keepLatest?, keepProj?, keep?, some true⟩).2 = [] := by
    simp only [pruneCache]
    exact (hmain _).2
  refine ⟨?_, hdel, ?_, ?_⟩
  · simp only [pruneCache]
    exact (hmain _).1
  · rfl
  · simp only [hdel]
    simp

/-! ## Claim C8: repository locator shape normalization -/

theorem notMemClass {s : Str} {x : Char} (hs : ∀ c ∈ s, bareClassChar c = true)
    (hx : bareClassChar x = false) : x ∉ s := by
  intro hm
  have h2 := hs x hm
  rw [h2] at hx
  cases hx

theorem notMem_append {x : Char} {a b : Str} (ha : x ∉ a) (hb : x ∉ b) :
    x ∉ a ++ b := by
  intro h
  rcases List.mem_append.mp h with h1 | h2
  · exact ha h1
  · exact hb h2

theorem notMem_cons {x c : Char} {b : Str} (hc : x ≠ c) (hb : x ∉ b) :
    x ∉ c :: b := by
  intro h
  rcases List.mem_cons.mp h with h1 | h2
  · exact hc h1
  · exact hb h2

theorem dropWhile_false {p : Char → Bool} {s : Str} (h : ∀ c ∈ s, p c = false) :
    s.dropWhile p = s := by
  cases s with
  | nil => rfl
  | cons c rest =>
    rw [List.dropWhile_cons, if_neg]
    rw [h c (List.mem_cons_self _ _)]
    simp

theorem trimStr_eq_self {s : Str} (h : ∀ c ∈ s, c.isWhitespace = false) :
    trimStr s = s := by
  unfold trimStr
  rw [dropWhile_false h,
    dropWhile_false (fun c hc => h c (List.mem_reverse.mp hc)),
    List.reverse_reverse]

theorem wsFree_class {s : Str} (h : ∀ c ∈ s, bareClassChar c = true) :
    ∀ c ∈ s, c.isWhitespace = false := by
  intro c hc
  cases hw : c.isWhitespace
  · rfl
  · exfalso
    have hcl := h c hc
    have hw2 : ((c = ' ' ∨ c = '\t') ∨ c = '\x0d') ∨ c = '\n' := by
      simpa [Char.isWhitespace, decide_eq_true_eq] using hw
    rcases hw2 with ((rfl | rfl) | rfl) | rfl <;> exact absurd hcl (by decide)

theorem wsFree_append {a b : Str} (ha : ∀ c ∈ a, c.isWhitespace = false)
    (hb : ∀ c ∈ b, c.isWhitespace = false) :
    ∀ c ∈ a ++ b, c.isWhitespace = false := by
  intro c hc
  rcases List.mem_append.mp hc with h1 | h2
  · exact ha c h1
  · exact hb c h2

theorem wsFree_cons {c0 : Char} {b : Str} (hc : c0.isWhitespace = false)
    (hb : ∀ c ∈ b, c.isWhitespace = false) :
    ∀ c ∈ c0 :: b, c.isWhitespace = false := by
  intro c hc2
  rcases List.mem_cons.mp hc2 with rfl | h2
  · exact hc
  · exact hb c h2

theorem isPrefixB_false_of_missing {p s : Str} (x : Char) (hxp : x ∈ p)
    (hxs : x ∉ s) : isPrefixB p s = false := by
  cases hb : isPrefixB p s
  · rfl
  · exact absurd (isPrefixB_sub hb x hxp) hxs

theorem containsB_false {s : Str} {x : Char} (h : x ∉ s) :
    s.contains x = false := by
  cases hb : s.contains x
  · rfl
  · exact absurd (List.elem_iff.mp (by simpa [List.contains] using hb)) h

theorem splitFirst_append {sep : Char} {a : Str} (b : Str) (h : sep ∉ a) :
    splitFirst sep (a ++ sep :: b) = some (a, b) := by
  induction a with
  | nil => simp [splitFirst]
  | cons x xs ih =>
    have hx : ¬ x = sep := fun e => h (by rw [e]; exact List.mem_cons_self _ _)
    have hxs : sep ∉ xs := fun m => h (List.mem_cons_of_mem _ m)
    simp [splitFirst, hx, ih hxs]

theorem cutAtFirst_not_mem {sep : Char} {s : Str} (h : sep ∉ s) :
    cutAtFirst sep s = s := by
  induction s with
  | nil => rfl
  | cons c rest ih =>
    have hc : ¬ c = sep := fun e => h (by rw [e]; exact List.mem_cons_self _ _)
    have hcs : sep ∉ rest := fun m => h (List.mem_cons_of_mem _ m)
    simp [cutAtFirst, hc, ih hcs]

theorem cutAtFirst_append {sep : Char} {a : Str} (b : Str) (h : sep ∉ a) :
    cutAtFirst sep (a ++ sep :: b) = a := by
  induction a with
  | nil => simp [cutAtFirst]
  | cons x xs ih =>
    have hx : ¬ x = sep := fun e => h (by rw [e]; exact List.mem_cons_self _ _)
    have hxs : sep ∉ xs := fun m => h (List.mem_cons_of_mem _ m)
    simp [cutAtFirst, hx, ih hxs]

theorem dropPrefixIf_no {p s : Str} (h : isPrefixB p s = false) :
    dropPrefixIf p s = s := by
  simp [dropPrefixIf, h]

theorem dropPrefixIf_strip (p s : Str) : dropPrefixIf p (p ++ s) = s := by
  simp [dropPrefixIf, isPrefixB_append, List.drop_left]

theorem hostDomain_ws (h2 : Host) : ∀ c ∈ hostDomain h2, c.isWhitespace = false := by
  cases h2 <;> decide

theorem hostDomain_hash (h2 : Host) : '#' ∉ hostDomain h2 := by
  cases h2 <;> decide

theorem hostDomain_slash (h2 : Host) : '/' ∉ hostDomain h2 := by
  cases h2 <;> decide

theorem hostDomain_plus (h2 : Host) : '+' ∉ hostDomain h2 := by
  cases h2 <;> decide

theorem hostWord_ws (h2 : Host) : ∀ c ∈ hostWordStr h2, c.isWhitespace = false := by
  cases h2 <;> decide

theorem hostWord_hash (h2 : Host) : '#' ∉ hostWordStr h2 := by
  cases h2 <;> decide

theorem inferHost_domain (h2 : Host) : inferHost (hostDomain h2) = some h2 := by
  cases h2 <;> rfl

theorem gitPlus_hostWord (h2 : Host) (tail : Str) :
    isPrefixB "git+".data (hostWordStr h2 ++ tail) = false := by
  cases h2 <;> rfl

theorem cleanRepoName_id {repo : Str} (hC : ∀ c ∈ repo, bareClassChar c = true)
    (hgit : endsWithB ".git".data (lowerStr repo) = false) :
    cleanRepoName repo = repo := by
  simp only [cleanRepoName]
  rw [if_neg (by rw [hgit]; simp)]
  rw [dropWhile_false, List.reverse_reverse]
  intro c hc
  refine decide_eq_false fun e => ?_
  have h2 := hC c (List.mem_reverse.mp hc)
  rw [e] at h2
  exact absurd h2 (by decide)

theorem cleanRepoName_strip {repo : Str} (hC : ∀ c ∈ repo, bareClassChar c = true) :
    cleanRepoName (repo ++ ".git".data) = repo := by
  simp only [cleanRepoName]
  have hend : endsWithB ".git".data (lowerStr (repo ++ ".git".data)) = true := by
    unfold endsWithB lowerStr
    rw [List.map_append, List.reverse_append]
    have h3 : (List.map Char.toLower ".git".data).reverse =
        ".git".data.reverse ++ [] := by decide
    rw [h3, List.append_assoc]
    exact isPrefixB_append _ _
  rw [if_pos hend]
  have hlen : (repo ++ ".git".data).length - 4 = repo.length := by
    simp [List.length_append]
  rw [hlen, List.take_left]
  rw [dropWhile_false, List.reverse_reverse]
  intro c hc
  refine decide_eq_false fun e => ?_
  have h2 := hC c (List.mem_reverse.mp hc)
  rw [e] at h2
  exact absurd h2 (by decide)

theorem matchOwnerRepoTail_split {O Rr : Str} (hone : O ≠ []) (hoslash : '/' ∉ O)
    (hrne : Rr ≠ []) (hrhash : '#' ∉ Rr) :
    matchOwnerRepoTail (O ++ '/' :: Rr) = some (O, Rr) := by
  unfold matchOwnerRepoTail
  rw [splitFirst_append Rr hoslash]
  simp [hone, hrne, containsB_false hrhash, hrhash]

theorem shorthandMatch_shape (h2 : Host) (tail : Str) :
    shorthandMatch (hostWordStr h2 ++ ':' :: tail) =
      (matchOwnerRepoTail tail).map fun p => (h2, p.1, p.2) := by
  cases h2 <;> rfl

theorem scpLikeMatch_shape (h2 : Host) (tail : Str) :
    scpLikeMatch ("git@".data ++ (hostDomain h2 ++ ':' :: tail)) =
      (matchOwnerRepoTail tail).map fun p => (h2, p.1, p.2) := by
  cases h2 <;> rfl

theorem sshColonMatch_shape (h2 : Host) (tail : Str) :
    sshColonMatch ("ssh://".data ++ ("git@".data ++ (hostDomain h2 ++ ':' :: tail))) =
      (matchOwnerRepoTail tail).map fun p => (h2, p.1, p.2) := by
  cases h2 <;> rfl

theorem parseUrlHostPath_https (h2 : Host) (Y : Str) :
    parseUrlHostPath ("https://".data ++ (hostDomain h2 ++ '/' :: Y)) =
      some (hostDomain h2, '/' :: Y) := by
  cases h2 <;> rfl

theorem urlBranch_https (h2 : Host) (O Rr : Str) (dir : Option Str)
    (hone : O ≠ []) (hoC : ∀ c ∈ O, bareClassChar c = true)
    (hrne : Rr ≠ []) (hrslash : '/' ∉ Rr) :
    urlBranch ("https://".data ++ (hostDomain h2 ++ '/' :: (O ++ '/' :: Rr))) dir =
      some (parseOwnerRepo h2 O Rr dir) := by
  unfold urlBranch
  rw [parseUrlHostPath_https h2 (O ++ '/' :: Rr)]
  simp only [inferHost_domain]
  obtain ⟨oc, orest, rfl⟩ : ∃ c r, O = c :: r := by
    cases O with
    | nil => exact absurd rfl hone
    | cons c r => exact ⟨c, r, rfl⟩
  have hoc : decide (oc = '/') = false := by
    refine decide_eq_false fun e => ?_
    have h3 := hoC oc (List.mem_cons_self _ _)
    rw [e] at h3
    exact absurd h3 (by decide)
  have hdw : List.dropWhile (fun c => decide (c = '/'))
      ('/' :: (oc :: orest ++ '/' :: Rr)) = oc :: orest ++ '/' :: Rr := by
    rw [List.dropWhile_cons, if_pos (by decide), List.cons_append,
      List.dropWhile_cons, if_neg (by simp [hoc]), ← List.cons_append]
  rw [hdw]
  have hslash : '/' ∉ oc :: orest := notMemClass hoC (by decide)
  rw [splitChar_append Rr hslash, splitChar_not_mem hrslash]
  simp [hrne]

theorem parseNormalized_https (h2 : Host) (O Rr : Str) (dir : Option Str)
    (hone : O ≠ []) (hoC : ∀ c ∈ O, bareClassChar c = true)
    (hrne : Rr ≠ []) (hrslash : '/' ∉ Rr) :
    parseNormalized ("https://".data ++ (hostDomain h2 ++ '/' :: (O ++ '/' :: Rr)))
      dir = some (parseOwnerRepo h2 O Rr dir) := by
  have hsh : shorthandMatch
      ("https://".data ++ (hostDomain h2 ++ '/' :: (O ++ '/' :: Rr))) = none := rfl
  have hbare : bareGithubMatch
      ("https://".data ++ (hostDomain h2 ++ '/' :: (O ++ '/' :: Rr))) = none := rfl
  have hscp : scpLikeMatch
      ("https://".data ++ (hostDomain h2 ++ '/' :: (O ++ '/' :: Rr))) = none := rfl
  have hssh : sshColonMatch
      ("https://".data ++ (hostDomain h2 ++ '/' :: (O ++ '/' :: Rr))) = none := rfl
  simp only [parseNormalized, hsh, hbare, hscp, hssh,
    urlBranch_https h2 O Rr dir hone hoC hrne hrslash]

theorem parseNormalized_scp (h2 : Host) (O Rr : Str) (dir : Option Str)
    (hone : O ≠ []) (hoC : ∀ c ∈ O, bareClassChar c = true)
    (hrne : Rr ≠ []) (hrhash : '#' ∉ Rr) :
    parseNormalized ("git@".data ++ (hostDomain h2 ++ ':' :: (O ++ '/' :: Rr)))
      dir = some (parseOwnerRepo h2 O Rr dir) := by
  have hOslash : '/' ∉ O := notMemClass hoC (by decide)
  have hsh : shorthandMatch
      ("git@".data ++ (hostDomain h2 ++ ':' :: (O ++ '/' :: Rr))) = none := rfl
  have hassoc : "git@".data ++ (hostDomain h2 ++ ':' :: (O ++ '/' :: Rr)) =
      ("git@".data ++ (hostDomain h2 ++ ':' :: O)) ++ '/' :: Rr := by
    simp [List.append_assoc]
  have hbare : bareGithubMatch
      ("git@".data ++ (hostDomain h2 ++ ':' :: (O ++ '/' :: Rr))) = none := by
    unfold bareGithubMatch
    have hPslash : '/' ∉ "git@".data ++ (hostDomain h2 ++ ':' :: O) :=
      notMem_append (by decide) (notMem_append (hostDomain_slash h2)
        (notMem_cons (by decide) hOslash))
    rw [hassoc, splitFirst_append Rr hPslash]
    have hPall : ("git@".data ++ (hostDomain h2 ++ ':' :: O)).all bareClassChar
        = false := by
      cases hb : ("git@".data ++ (hostDomain h2 ++ ':' :: O)).all bareClassChar
      · rfl
      · exfalso
        have h3 := List.all_eq_true.mp hb '@'
          (List.mem_append.mpr (Or.inl (by decide)))
        exact absurd h3 (by decide)
    simp only [hPall, Bool.and_false, Bool.false_and, Bool.false_eq_true,
      if_false]
  have hscp : scpLikeMatch
      ("git@".data ++ (hostDomain h2 ++ ':' :: (O ++ '/' :: Rr))) =
        some (h2, O, Rr) := by
    rw [scpLikeMatch_shape h2 (O ++ '/' :: Rr),
      matchOwnerRepoTail_split hone hOslash hrne hrhash]
    rfl
  simp only [parseNormalized, hsh, hbare, hscp]

theorem parseNormalized_ssh (h2 : Host) (O Rr : Str) (dir : Option Str)
    (hone : O ≠ []) (hoC : ∀ c ∈ O, bareClassChar c = true)
    (hrne : Rr ≠ []) (hrhash : '#' ∉ Rr) :
    parseNormalized
      ("ssh://".data ++ ("git@".data ++ (hostDomain h2 ++ ':' :: (O ++ '/' :: Rr))))
      dir = some (parseOwnerRepo h2 O Rr dir) := by
  have hOslash : '/' ∉ O := notMemClass hoC (by decide)
  have hsh : shorthandMatch ("ssh://".data ++
      ("git@".data ++ (hostDomain h2 ++ ':' :: (O ++ '/' :: Rr)))) = none := rfl
  have hbare : bareGithubMatch ("ssh://".data ++
      ("git@".data ++ (hostDomain h2 ++ ':' :: (O ++ '/' :: Rr)))) = none := rfl
  have hscp : scpLikeMatch ("ssh://".data ++
      ("git@".data ++ (hostDomain h2 ++ ':' :: (O ++ '/' :: Rr)))) = none := rfl
  have hssh : sshColonMatch ("ssh://".data ++
      ("git@".data ++ (hostDomain h2 ++ ':' :: (O ++ '/' :: Rr)))) =
        some (h2, O, Rr) := by
    rw [sshColonMatch_shape h2 (O ++ '/' :: Rr),
      matchOwnerRepoTail_split hone hOslash hrne hrhash]
    rfl
  simp only [parseNormalized, hsh, hbare, hscp, hssh]

theorem parseNormalized_shorthand (h2 : Host) (O Rr : Str) (dir : Option Str)
    (hone : O ≠ []) (hoC : ∀ c ∈ O, bareClassChar c = true)
    (hrne : Rr ≠ []) (hrhash : '#' ∉ Rr) :
    parseNormalized (hostWordStr h2 ++ ':' :: (O ++ '/' :: Rr)) dir =
      some (parseOwnerRepo h2 O Rr dir) := by
  have hOslash : '/' ∉ O := notMemClass hoC (by decide)
  have hsh : shorthandMatch (hostWordStr h2 ++ ':' :: (O ++ '/' :: Rr)) =
      some (h2, O, Rr) := by
    rw [shorthandMatch_shape h2 (O ++ '/' :: Rr),
      matchOwnerRepoTail_split hone hOslash hrne hrhash]
    rfl
  simp only [parseNormalized, hsh]

theorem parseNormalized_bare (O Rr : Str) (dir : Option Str)
    (hone : O ≠ []) (hoC : ∀ c ∈ O, bareClassChar c = true)
    (hrne : Rr ≠ []) (hrC : ∀ c ∈ Rr, bareClassChar c = true) :
    parseNormalized (O ++ '/' :: Rr) dir =
      some (parseOwnerRepo Host.github O Rr dir) := by
  have hOslash : '/' ∉ O := notMemClass hoC (by decide)
  have hcolon : ':' ∉ O ++ '/' :: Rr :=
    notMem_append (notMemClass hoC (by decide))
      (notMem_cons (by decide) (notMemClass hrC (by decide)))
  have h1 : isPrefixB "github:".data (O ++ '/' :: Rr) = false :=
    isPrefixB_false_of_missing ':' (by decide) hcolon
  have h2 : isPrefixB "gitlab:".data (O ++ '/' :: Rr) = false :=
    isPrefixB_false_of_missing ':' (by decide) hcolon
  have h3 : isPrefixB "bitbucket:".data (O ++ '/' :: Rr) = false :=
    isPrefixB_false_of_missing ':' (by decide) hcolon
  have hsh : shorthandMatch (O ++ '/' :: Rr) = none := by
    simp [shorthandMatch, matchHostShorthand, h1, h2, h3]
  have hbare : bareGithubMatch (O ++ '/' :: Rr) = some (O, Rr) := by
    unfold bareGithubMatch
    rw [splitFirst_append Rr hOslash]
    simp [hone, hrne, List.all_eq_true.mpr hoC, List.all_eq_true.mpr hrC]
  simp only [parseNormalized, hsh, hbare]

theorem parseRepositoryUrl_strField (s : Str) :
    parseRepositoryUrl (some (.strField s)) =
      parseNormalized (cutAtFirst '#' (dropPrefixIf "git+".data (trimStr s)))
        none := rfl

/-- C8: the supported repository-field shapes that denote the same owner and
repository on a supported host all parse to the same normalized descriptor:
the plain HTTPS URL, the HTTPS URL with a .git suffix, the git+https scheme,
the HTTPS URL with a #fragment, the scp-style git@host:owner/repo.git form,
the ssh://git@host:owner/repo.git form and the host:owner/repo shorthand all
yield the host's descriptor, and the bare owner/repo form yields the GitHub
descriptor. -/
theorem c8_locator_shapes (h : Host) (owner repo : Str)
    (hone : owner ≠ []) (hoC : ∀ c ∈ owner, bareClassChar c = true)
    (hrne : repo ≠ []) (hrC : ∀ c ∈ repo, bareClassChar c = true)
    (hgit : endsWithB ".git".data (lowerStr repo) = false) :
    parseRepositoryUrl (some (.strField
        ("https://".data ++ (hostDomain h ++ '/' :: (owner ++ '/' :: repo))))) =
      some ⟨h, owner, repo, none⟩ ∧
    parseRepositoryUrl (some (.strField
        ("https://".data ++ (hostDomain h ++ '/' :: (owner ++ '/' ::
          (repo ++ ".git".data)))))) = some ⟨h, owner, repo, none⟩ ∧
    parseRepositoryUrl (some (.strField
        ("git+".data ++ ("https://".data ++ (hostDomain h ++ '/' :: (owner ++
          '/' :: (repo ++ ".git".data))))))) = some ⟨h, owner, repo, none⟩ ∧
    parseRepositoryUrl (some (.strField
        (("https://".data ++ (hostDomain h ++ '/' :: (owner ++ '/' :: repo))) ++
          "#readme".data))) = some ⟨h, owner, repo, none⟩ ∧
    parseRepositoryUrl (some (.strField
        ("git@".data ++ (hostDomain h ++ ':' :: (owner ++ '/' ::
          (repo ++ ".git".data)))))) = some ⟨h, owner, repo, none⟩ ∧
    parseRepositoryUrl (some (.strField
        ("ssh://".data ++ ("git@".data ++ (hostDomain h ++ ':' :: (owner ++
          '/' :: (repo ++ ".git".data))))))) = some ⟨h, owner, repo, none⟩ ∧
    parseRepositoryUrl (some (.strField
        (hostWordStr h ++ ':' :: (owner ++ '/' :: repo)))) =
      some ⟨h, owner, repo, none⟩ ∧
    parseRepositoryUrl (some (.strField (owner ++ '/' :: repo))) =
      some ⟨Host.github, owner, repo, none⟩ := by
  have hoWS := wsFree_class hoC
  have hrWS := wsFree_class hrC
  have hoHash : '#' ∉ owner := notMemClass hoC (by decide)
  have hrHash : '#' ∉ repo := notMemClass hrC (by decide)
  have hrSlash : '/' ∉ repo := notMemClass hrC (by decide)
  have hRrne : repo ++ ".git".data ≠ [] := fun h0 =>
    absurd (List.append_eq_nil.mp h0).2 (by decide)
  have hRrSlash : '/' ∉ repo ++ ".git".data := notMem_append hrSlash (by decide)
  have hRrHash : '#' ∉ repo ++ ".git".data := notMem_append hrHash (by decide)
  have hRrWS : ∀ c ∈ repo ++ ".git".data, c.isWhitespace = false :=
    wsFree_append hrWS (by decide)
  have hclean1 := cleanRepoName_id hrC hgit
  have hclean2 := cleanRepoName_strip hrC
  have hT1ws : ∀ c ∈ "https://".data ++ (hostDomain h ++ '/' ::
      (owner ++ '/' :: repo)), c.isWhitespace = false :=
    wsFree_append (by decide) (wsFree_append (hostDomain_ws h)
      (wsFree_cons (by decide) (wsFree_append hoWS (wsFree_cons (by decide) hrWS))))
  have hT1hash : '#' ∉ "https://".data ++ (hostDomain h ++ '/' ::
      (owner ++ '/' :: repo)) :=
    notMem_append (by decide) (notMem_append (hostDomain_hash h)
      (notMem_cons (by decide) (notMem_append hoHash
        (notMem_cons (by decide) hrHash))))
  have hT2ws : ∀ c ∈ "https://".data ++ (hostDomain h ++ '/' ::
      (owner ++ '/' :: (repo ++ ".git".data))), c.isWhitespace = false :=
    wsFree_append (by decide) (wsFree_append (hostDomain_ws h)
      (wsFree_cons (by decide) (wsFree_append hoWS
        (wsFree_cons (by decide) hRrWS))))
  have hT2hash : '#' ∉ "https://".data ++ (hostDomain h ++ '/' ::
      (owner ++ '/' :: (repo ++ ".git".data))) :=
    notMem_append (by decide) (notMem_append (hostDomain_hash h)
      (notMem_cons (by decide) (notMem_append hoHash
        (notMem_cons (by decide) hRrHash))))
  have hT5ws : ∀ c ∈ "git@".data ++ (hostDomain h ++ ':' ::
      (owner ++ '/' :: (repo ++ ".git".data))), c.isWhitespace = false :=
    wsFree_append (by decide) (wsFree_append (hostDomain_ws h)
      (wsFree_cons (by decide) (wsFree_append hoWS
        (wsFree_cons (by decide) hRrWS))))
  have hT5hash : '#' ∉ "git@".data ++ (hostDomain h ++ ':' ::
      (owner ++ '/' :: (repo ++ ".git".data))) :=
    notMem_append (by decide) (notMem_append (hostDomain_hash h)
      (notMem_cons (by decide) (notMem_append hoHash
        (notMem_cons (by decide) hRrHash))))
  have hoPlus : '+' ∉ owner := notMemClass hoC (by decide)
  have hrPlus : '+' ∉ repo := notMemClass hrC (by decide)
  have hRrPlus : '+' ∉ repo ++ ".git".data := notMem_append hrPlus (by decide)
  have hT1plus : '+' ∉ "https://".data ++ (hostDomain h ++ '/' ::
      (owner ++ '/' :: repo)) :=
    notMem_append (by decide) (notMem_append (hostDomain_plus h)
      (notMem_cons (by decide) (notMem_append hoPlus
        (notMem_cons (by decide) hrPlus))))
  have hT2plus : '+' ∉ "https://".data ++ (hostDomain h ++ '/' ::
      (owner ++ '/' :: (repo ++ ".git".data))) :=
    notMem_append (by decide) (notMem_append (hostDomain_plus h)
      (notMem_cons (by decide) (notMem_append hoPlus
        (notMem_cons (by decide) hRrPlus))))
  have hT5plus : '+' ∉ "git@".data ++ (hostDomain h ++ ':' ::
      (owner ++ '/' :: (repo ++ ".git".data))) :=
    notMem_append (by decide) (notMem_append (hostDomain_plus h)
      (notMem_cons (by decide) (notMem_append hoPlus
        (notMem_cons (by decide) hRrPlus))))
  refine ⟨?_, ?_, ?_, ?_, ?_, ?_, ?_, ?_⟩
  · rw [parseRepositoryUrl_strField, trimStr_eq_self hT1ws,
      dropPrefixIf_no (isPrefixB_false_of_missing '+' (by decide) hT1plus),
      cutAtFirst_not_mem hT1hash,
      parseNormalized_https h owner repo none hone hoC hrne hrSlash]
    simp only [parseOwnerRepo, hclean1]
  · rw [parseRepositoryUrl_strField, trimStr_eq_self hT2ws,
      dropPrefixIf_no (isPrefixB_false_of_missing '+' (by decide) hT2plus),
      cutAtFirst_not_mem hT2hash,
      parseNormalized_https h owner (repo ++ ".git".data) none hone hoC hRrne
        hRrSlash]
    simp only [parseOwnerRepo, hclean2]
  · rw [parseRepositoryUrl_strField,
      trimStr_eq_self (wsFree_append (by decide) hT2ws),
      dropPrefixIf_strip "git+".data _, cutAtFirst_not_mem hT2hash,
      parseNormalized_https h owner (repo ++ ".git".data) none hone hoC hRrne
        hRrSlash]
    simp only [parseOwnerRepo, hclean2]
  · rw [parseRepositoryUrl_strField,
      trimStr_eq_self (wsFree_append hT1ws (by decide)),
      dropPrefixIf_no (isPrefixB_false_of_missing '+' (by decide)
        (notMem_append hT1plus (by decide)))]
    have hfrag : ("https://".data ++ (hostDomain h ++ '/' ::
        (owner ++ '/' :: repo))) ++ "#readme".data =
        ("https://".data ++ (hostDomain h ++ '/' :: (owner ++ '/' :: repo))) ++
          '#' :: "readme".data := rfl
    rw [hfrag, cutAtFirst_append _ hT1hash,
      parseNormalized_https h owner repo none hone hoC hrne hrSlash]
    simp only [parseOwnerRepo, hclean1]
  · rw [parseRepositoryUrl_strField, trimStr_eq_self hT5ws,
      dropPrefixIf_no (isPrefixB_false_of_missing '+' (by decide) hT5plus),
      cutAtFirst_not_mem hT5hash,
      parseNormalized_scp h owner (repo ++ ".git".data) none hone hoC hRrne
        hRrHash]
    simp only [parseOwnerRepo, hclean2]
  · rw [parseRepositoryUrl_strField,
      trimStr_eq_self (wsFree_append (by decide) hT5ws),
      dropPrefixIf_no (isPrefixB_false_of_missing '+' (by decide)
        (notMem_append (by decide) hT5plus)),
      cutAtFirst_not_mem (notMem_append (by decide) hT5hash),
      parseNormalized_ssh h owner (repo ++ ".git".data) none hone hoC hRrne
        hRrHash]
    simp only [parseOwnerRepo, hclean2]
  · rw [parseRepositoryUrl_strField,
      trimStr_eq_self (wsFree_append (hostWord_ws h) (wsFree_cons (by decide)
        (wsFree_append hoWS (wsFree_cons (by decide) hrWS)))),
      dropPrefixIf_no (gitPlus_hostWord h _),
      cutAtFirst_not_mem (notMem_append (hostWord_hash h) (notMem_cons (by decide)
        (notMem_append hoHash (notMem_cons (by decide) hrHash)))),
      parseNormalized_shorthand h owner repo none hone hoC hrne hrHash]
    simp only [parseOwnerRepo, hclean1]
  · have hplus : '+' ∉ owner ++ '/' :: repo :=
      notMem_append (notMemClass hoC (by decide))
        (notMem_cons (by decide) (notMemClass hrC (by decide)))
    rw [parseRepositoryUrl_strField,
      trimStr_eq_self (wsFree_append hoWS (wsFree_cons (by decide) hrWS)),
      dropPrefixIf_no (isPrefixB_false_of_missing '+' (by decide) hplus),
      cutAtFirst_not_mem (notMem_append hoHash (notMem_cons (by decide) hrHash)),
      parseNormalized_bare owner repo none hone hoC hrne hrC]
    simp only [parseOwnerRepo, hclean1]

/-- C8 witness: the git+https shape for github.com/octocat/hello.git parses
to the github octocat/hello descriptor, through the theorem at concrete
input. -/
theorem c8_locator_shapes_witness :
    parseRepositoryUrl (some (.strField ("git+".data ++ ("https://".data ++
        (hostDomain Host.github ++ '/' :: ("octocat".data ++ '/' ::
          ("hello".data ++ ".git".data))))))) =
      some ⟨Host.github, "octocat".data, "hello".data, none⟩ :=
  (c8_locator_shapes Host.github "octocat".data "hello".data (by decide)
    (by decide) (by decide) (by decide) (by decide)).2.2.1

/-! ## Claim C4: idempotence for a cached key -/

/-- C4: when the canonical cache directory of the installed (packageName,
version) already exists, both acquisition entry points perform no registry
request, no tag listing, no git invocation and no download, and return a
successful outcome marked fromCache = true: pullPackageForProject yields a
complete result with fromCache some true and an empty effect list, and
ensurePackageSourceFromInstalled yields an empty effect list and an ok
result whose fromCache field is true. -/
theorem c4_cached_idempotent (packageName : Str) (declaredSpec : Option Str)
    (env : PullEnv) (installed : InstalledPkg) (repositoryPath : Str)
    (hinst : env.installed = .ok installed)
    (hdir : env.isDirAt (getStoredPackagePath env.storeDir packageName
      installed.version) = true)
    (hws : (match declaredSpec with
      | some s => isWorkspaceSpecifier s
      | none => false) = false)
    (hlink : env.link = .ok repositoryPath) :
    pullPackageForProject packageName declaredSpec env =
      (⟨packageName, some installed.version, .complete, some true, none, none⟩,
        []) ∧
    (ensurePackageSourceFromInstalled packageName env).2 = [] ∧
    ∃ res : PackageSourceResult,
      (ensurePackageSourceFromInstalled packageName env).1 = .ok res ∧
        res.fromCache = true := by
  refine ⟨?_, ?_, ?_⟩
  · simp only [pullPackageForProject, hws, hinst, hdir, hlink,
      Bool.false_eq_true, if_false, if_true]
  · simp only [ensurePackageSourceFromInstalled, hinst, hdir, hlink,
      Bool.false_eq_true, if_false, if_true]
  · simp only [ensurePackageSourceFromInstalled, hinst, hdir, hlink,
      Bool.false_eq_true, if_false, if_true]
    exact ⟨_, rfl, rfl⟩

/-- C4 witness: a concrete environment whose cache directory test answers
true acquires pkg@1.0.0 from the cache with no external calls. -/
theorem c4_cached_idempotent_witness :
    pullPackageForProject "pkg".data none
      ⟨"/s".data, .ok ⟨"1.0.0".data, none, false⟩, fun _ => true,
        ⟨"/l".data, none⟩, .ok "/r".data, .error "e".data, none,
        fun _ => ⟨.throwErr "x".data, false, "t".data⟩, .ok ()⟩ =
      (⟨"pkg".data, some "1.0.0".data, .complete, some true, none, none⟩, []) :=
  (c4_cached_idempotent "pkg".data none
    ⟨"/s".data, .ok ⟨"1.0.0".data, none, false⟩, fun _ => true,
      ⟨"/l".data, none⟩, .ok "/r".data, .error "e".data, none,
      fun _ => ⟨.throwErr "x".data, false, "t".data⟩, .ok ()⟩
    ⟨"1.0.0".data, none, false⟩ "/r".data rfl rfl rfl rfl).1

end Cocon

